import Mathlib

/-!
# wd-tagger-go: score postprocessing and image normalisation

A shallow embedding of `tagger.go` (package `wdtagger`).

* A score is a `float32`.  `F32` holds NaN, the two infinities and the finite
  values as rational numbers; `F32.round` is rounding to nearest, ties to even,
  onto the binary32 grid (24-bit significand, exponents -126 to 127, subnormals,
  overflow to infinity).  The two zeros are identified: they compare equal and
  no operation used here tells them apart.
* A Go run-time panic (index out of range, `make` with a negative length) is
  the value `none`.
* A taxonomy row is a CSV record, a list of strings; `tag[1]` is the name and
  `tag[2]` the category code.
-/

namespace WdTagger

/-! ## `float32` -/

/-- A `float32` value. -/
inductive F32
  | nan
  | ninf
  | fin (q : ℚ)
  | pinf
  deriving DecidableEq, Repr

namespace F32

/-- Go `a < b` on `float32`: false as soon as one side is NaN. -/
def lt : F32 → F32 → Bool
  | fin a, fin b => decide (a < b)
  | ninf, fin _ => true
  | ninf, pinf => true
  | fin _, pinf => true
  | _, _ => false

/-- Go `a <= b` on `float32`: false as soon as one side is NaN. -/
def le : F32 → F32 → Bool
  | fin a, fin b => decide (a ≤ b)
  | ninf, ninf => true
  | ninf, fin _ => true
  | ninf, pinf => true
  | fin _, pinf => true
  | pinf, pinf => true
  | _, _ => false

/-- Round to the nearest integer, ties to the even one. -/
def rne (x : ℚ) : ℤ :=
  if x - ⌊x⌋ < 1 / 2 then ⌊x⌋
  else if 1 / 2 < x - ⌊x⌋ then ⌊x⌋ + 1
  else if ⌊x⌋ % 2 = 0 then ⌊x⌋ else ⌊x⌋ + 1

/-- The largest `e` among `-126, ..., k - 126` with `2 ^ e ≤ a`, and `-126` when
there is none. -/
def expoFrom (a : ℚ) : Nat → ℤ
  | 0 => -126
  | k + 1 => if (2 : ℚ) ^ ((k : ℤ) + 1 - 126) ≤ a then (k : ℤ) + 1 - 126 else expoFrom a k

/-- The binary32 exponent used for `x`: `⌊log₂ |x|⌋` clamped to `-126 .. 127`. -/
def expo (x : ℚ) : ℤ :=
  expoFrom |x| 253

/-- The spacing of the binary32 grid at `x`. -/
def ulp (x : ℚ) : ℚ :=
  (2 : ℚ) ^ (expo x - 23)

/-- The point of the binary32 grid around `x` nearest to `x`, ties to the even
significand, with no bound on the exponent from above. -/
def nearest (x : ℚ) : ℚ :=
  (rne (x / ulp x) : ℚ) * ulp x

/-- The `float32` nearest to the rational `x` (ties to even); a result of
magnitude `2 ^ 128` or more is an infinity. -/
def round (x : ℚ) : F32 :=
  if (2 : ℚ) ^ (128 : ℕ) ≤ nearest x then pinf
  else if nearest x ≤ -(2 : ℚ) ^ (128 : ℕ) then ninf
  else fin (nearest x)

/-- Go `a + b` on `float32`. -/
def add : F32 → F32 → F32
  | nan, _ => nan
  | _, nan => nan
  | pinf, ninf => nan
  | ninf, pinf => nan
  | pinf, _ => pinf
  | _, pinf => pinf
  | ninf, _ => ninf
  | _, ninf => ninf
  | fin a, fin b => round (a + b)

/-- Go `a - b` on `float32`. -/
def sub : F32 → F32 → F32
  | nan, _ => nan
  | _, nan => nan
  | pinf, pinf => nan
  | ninf, ninf => nan
  | pinf, _ => pinf
  | _, ninf => pinf
  | ninf, _ => ninf
  | _, pinf => ninf
  | fin a, fin b => round (a - b)

/-- Go `a / 2` on `float32`. -/
def half : F32 → F32
  | nan => nan
  | pinf => pinf
  | ninf => ninf
  | fin a => round (a / 2)

/-- The value is a finite number. -/
def isFinite : F32 → Bool
  | fin _ => true
  | _ => false

end F32

/-- The rational `q` is a `float32` value: rounding leaves it in place. -/
def Representable (q : ℚ) : Prop :=
  F32.round q = F32.fin q

instance (q : ℚ) : Decidable (Representable q) := by
  unfold Representable
  infer_instance

/-- The value is a finite `float32`: not NaN, not an infinity, and on the
binary32 grid. -/
def FiniteFloat : F32 → Prop
  | F32.fin q => Representable q
  | _ => False

instance (x : F32) : Decidable (FiniteFloat x) := by
  cases x <;> unfold FiniteFloat <;> infer_instance

/-! ## Data model -/

/-- The `Tags` struct returned by `postprocess`. -/
structure Tags where
  GeneralTags : List String
  CharacterTags : List String
  Rating : String
  deriving DecidableEq, Repr

/-! ## `mcutThreshold` -/

/-- The inner loop of `insertionSortLessFunc` (package `sort`),
`for j := i; j > a && less(j, j-1); j-- { swap(j, j-1) }`: `x` is the element
being moved and the list is the part to its left, nearest element first. -/
def insertLess {α : Type} (less : α → α → Bool) (x : α) : List α → List α
  | [] => [x]
  | y :: rest => if less x y then y :: insertLess less x rest else x :: y :: rest

/-- The outer loop of `insertionSortLessFunc`: `rev` is the part already in order,
last element first, and the second list what is left to insert. -/
def insertionSortLess {α : Type} (less : α → α → Bool) : List α → List α → List α
  | rev, [] => rev.reverse
  | rev, x :: rest => insertionSortLess less (insertLess less x rev) rest

/-- The effect of `sort.Slice(sorted, func(i, j) bool { return sorted[i] > sorted[j] })`
on the values of the slice.  `sort.Slice` runs this insertion sort on slices of
at most 12 elements.  On longer slices it runs pattern-defeating quicksort; when
no element is NaN the comparison is a strict order on the values and every
correct sort ends with the same descending list (see `sortDescQ_unique`). -/
def sortDesc (l : List F32) : List F32 :=
  insertionSortLess (fun a b => F32.lt b a) [] l

/-- The loop `for i := range difs { difs[i] = sorted[i] - sorted[i+1] }`,
for `difs` of length `len(sorted) - 1`. -/
def difsOf : List F32 → List F32
  | a :: b :: rest => F32.sub a b :: difsOf (b :: rest)
  | _ => []

/-- The loop `for i := 1; i < len(difs); i++ { if difs[i] > maxDiff { ... } }`:
`rest` is `difs[i:]`, and the pair is `(maxDiff, idx)`. -/
def scanMax : List F32 → Nat → F32 → Nat → F32 × Nat
  | [], _, maxDiff, idx => (maxDiff, idx)
  | d :: rest, i, maxDiff, idx =>
      if F32.lt maxDiff d then scanMax rest (i + 1) d i else scanMax rest (i + 1) maxDiff idx

/-- The backing arrays of the slices in play, in order of allocation; a slice
is named by the position of its array. -/
abbrev Heap := List (List F32)

/-- The body of `mcutThreshold` on the slice `scores` of `heap`, returning the
heap after the call and the threshold.  `slices.Clone` allocates the array of
`sorted`, and `sort.Slice` permutes that array in place. -/
def mcutThresholdRun (heap : Heap) (scores : Nat) : Option (Heap × F32) :=
  match heap[scores]? with
  | none => none
  | some data =>
      -- sorted := slices.Clone(scores)
      let sorted := heap.length
      let heap1 := heap ++ [data]
      -- sort.Slice(sorted, ...)
      let heap2 := heap1.set sorted (sortDesc data)
      match heap2[sorted]? with
      | none => none
      | some s =>
          -- `make([]float32, len(sorted)-1)` panics when `len(sorted) = 0`
          if s.length = 0 then none
          else
            -- `difs[0]` panics when `difs` is empty
            match difsOf s with
            | [] => none
            | d0 :: rest =>
                match s[(scanMax rest 1 d0 0).2]?, s[(scanMax rest 1 d0 0).2 + 1]? with
                | some a, some b => some (heap2, F32.half (F32.add a b))
                | _, _ => none

/-- The threshold `mcutThreshold(scores)` returns. -/
def mcutThreshold (scores : List F32) : Option F32 :=
  (mcutThresholdRun [scores] 0).map Prod.snd

/-! ## `filterTags` -/

/-- The loop of `filterTags`: `rest` is `names[idx:]`, `result` the slice built
so far.  `scores[idx]` panics when `scores` is shorter than `names`. -/
def filterTagsLoop (scores : List F32) (threshold : F32) :
    List String → Nat → List String → Option (List String)
  | [], _, result => some result
  | tagName :: rest, idx, result =>
      match scores[idx]? with
      | none => none
      | some score =>
          if F32.lt score threshold then filterTagsLoop scores threshold rest (idx + 1) result
          else filterTagsLoop scores threshold rest (idx + 1) (result ++ [tagName])

/-- Go `filterTags(scores, names, threshold)`. -/
def filterTags (scores : List F32) (names : List String) (threshold : F32) :
    Option (List String) :=
  filterTagsLoop scores threshold names 0 []

/-! ## `postprocess` -/

/-- The local variables of `postprocess` that its first loop writes. -/
structure Partition where
  generalScores : List F32
  generalNames : List String
  characterScores : List F32
  characterNames : List String
  ratingScore : F32
  ratingName : String
  deriving DecidableEq, Repr

/-- The zero values the locals start from (`var ratingScore float32`,
`var ratingName string`, nil slices). -/
def Partition.init : Partition :=
  ⟨[], [], [], [], F32.fin 0, ""⟩

/-- One iteration of `for i, score := range scores` in `postprocess`.
`t.tags[i]` and `tag[2]` panic when out of range. -/
def partitionStep (tags : List (List String)) (st : Partition) (i : Nat) (score : F32) :
    Option Partition :=
  match tags[i]? with
  | none => none
  | some tag =>
      match tag[2]?, tag[1]? with
      | some category, some name =>
          if category = "0" then
            some { st with generalScores := st.generalScores ++ [score],
                           generalNames := st.generalNames ++ [name] }
          else if category = "4" then
            some { st with characterScores := st.characterScores ++ [score],
                           characterNames := st.characterNames ++ [name] }
          else if category = "9" ∧ F32.lt st.ratingScore score = true then
            some { st with ratingName := name, ratingScore := score }
          else some st
      | _, _ => none

/-- The loop `for i, score := range scores`, from index `i` on. -/
def partitionLoop (tags : List (List String)) : List F32 → Nat → Partition → Option Partition
  | [], _, st => some st
  | score :: rest, i, st =>
      match partitionStep tags st i score with
      | none => none
      | some st1 => partitionLoop tags rest (i + 1) st1

/-- Go `postprocess(scores, generalThreshold, characterThreshold, generalMCut,
characterMCut)` of a tagger whose taxonomy is `tags`. -/
def postprocess (tags : List (List String)) (scores : List F32)
    (generalThreshold characterThreshold : F32) (generalMCut characterMCut : Bool) :
    Option Tags :=
  match partitionLoop tags scores 0 Partition.init with
  | none => none
  | some st =>
      match (if generalMCut then mcutThreshold st.generalScores else some generalThreshold) with
      | none => none
      | some gT =>
          match (if characterMCut then mcutThreshold st.characterScores
                 else some characterThreshold) with
          | none => none
          | some cT =>
              match filterTags st.generalScores st.generalNames gT,
                    filterTags st.characterScores st.characterNames cT with
              | some g, some c =>
                  some { GeneralTags := g, CharacterTags := c, Rating := st.ratingName }
              | _, _ => none

/-! ## The demultiplexing step of `Predict` -/

/-- The loop `for idx := range int(batch)` of `Predict`: `n` iterations are left,
`idx` is the current index, `output` the rest of the buffer, and `resultMap` the
map filled so far.  Each goroutine writes the key `idx` of its own iteration, so
the final map does not depend on the interleaving; the iterations are run here
in index order.  A panic in any `postprocess` call ends the program. -/
def demuxLoop (tags : List (List String)) (classes : Nat)
    (generalThreshold characterThreshold : F32) (generalMCut characterMCut : Bool) :
    Nat → Nat → List F32 → (Nat → Option Tags) → Option (Nat → Option Tags)
  | 0, _, _, resultMap => some resultMap
  | n + 1, idx, output, resultMap =>
      -- `output[:t.classes]` panics when `classes` exceeds the slice
      if classes ≤ output.length then
        match postprocess tags (output.take classes) generalThreshold characterThreshold
            generalMCut characterMCut with
        | none => none
        | some t =>
            demuxLoop tags classes generalThreshold characterThreshold generalMCut
              characterMCut n (idx + 1) (output.drop classes)
              (fun k => if k = idx then some t else resultMap k)
      else none

/-- Lines 122-143 of `Predict`: split `output` into `batch` chunks, postprocess
each, and collect `resultMap[idx]` for `idx` in `0..batch-1`.  An entry `none` of
the returned list is a nil `*Tags`. -/
def predictDemux (tags : List (List String)) (classes batch : Nat) (output : List F32)
    (generalThreshold characterThreshold : F32) (generalMCut characterMCut : Bool) :
    Option (List (Option Tags)) :=
  match demuxLoop tags classes generalThreshold characterThreshold generalMCut
      characterMCut batch 0 output (fun _ => none) with
  | none => none
  | some resultMap => some ((List.range batch).map resultMap)

/-! ## Specification-side notions -/

/-- The body of `mcutThreshold` after the sort, as a function of the values of
`scores` alone. -/
def mcutCore (scores : List F32) : Option F32 :=
  if (sortDesc scores).length = 0 then none
  else
    match difsOf (sortDesc scores) with
    | [] => none
    | d0 :: rest =>
        match (sortDesc scores)[(scanMax rest 1 d0 0).2]?,
              (sortDesc scores)[(scanMax rest 1 d0 0).2 + 1]? with
        | some a, some b => some (F32.half (F32.add a b))
        | _, _ => none

/-- The `float32` gap `s[i] - s[i+1]`. -/
def gapAt (s : List F32) (i : Nat) : F32 :=
  F32.sub (s.getD i (F32.fin 0)) (s.getD (i + 1) (F32.fin 0))

/-- Index `k` is the first position of a maximal `float32` gap of `s`: no gap is
greater than `s[k] - s[k+1]` and every earlier gap is less. -/
def IsFirstMaxGap (s : List F32) (k : Nat) : Prop :=
  k < s.length - 1 ∧
  (∀ i, i < s.length - 1 → F32.lt (gapAt s k) (gapAt s i) = false) ∧
  (∀ i, i < k → F32.lt (gapAt s i) (gapAt s k) = true)

instance (s : List F32) (k : Nat) : Decidable (IsFirstMaxGap s k) := by
  unfold IsFirstMaxGap
  infer_instance

/-- Exact numbers in descending order, by the same insertion sort. -/
def sortDescQ (l : List ℚ) : List ℚ :=
  insertionSortLess (fun a b => decide (b < a)) [] l

/-- Index `k` is the first position of a maximal gap of the exact numbers `s`. -/
def IsFirstMaxGapExact (s : List ℚ) (k : Nat) : Prop :=
  k < s.length - 1 ∧
  (∀ i, i < s.length - 1 → s.getD i 0 - s.getD (i + 1) 0 ≤ s.getD k 0 - s.getD (k + 1) 0) ∧
  (∀ i, i < k → s.getD i 0 - s.getD (i + 1) 0 < s.getD k 0 - s.getD (k + 1) 0)

instance (s : List ℚ) (k : Nat) : Decidable (IsFirstMaxGapExact s k) := by
  unfold IsFirstMaxGapExact
  infer_instance

/-- The names whose score is not below `threshold` in the sense of Go `<`, in
list order. -/
def keptNames (scores : List F32) (names : List String) (threshold : F32) : List String :=
  ((scores.zip names).filter (fun p => !F32.lt p.1 threshold)).map Prod.snd

/-- The names whose score satisfies Go `score >= threshold`, in list order. -/
def namesAtLeast (scores : List F32) (names : List String) (threshold : F32) : List String :=
  ((scores.zip names).filter (fun p => F32.le threshold p.1)).map Prod.snd

/-- A small taxonomy: three ratings, two general tags, one row of another
category and one character. -/
def demoTags : List (List String) :=
  [["0", "safe", "9", "1"], ["1", "questionable", "9", "1"], ["2", "explicit", "9", "1"],
   ["3", "1girl", "0", "5"], ["4", "solo", "0", "5"], ["5", "meta", "5", "5"],
   ["6", "hatsune_miku", "4", "5"]]

/-- Three `float32` values whose two exact gaps differ by `2 ^ -27` and whose
`float32` gaps are equal. -/
def tieScores : List ℚ :=
  [1, 1 / 2 + 1 / 2 ^ 24, 1 / 2 ^ 23 - 1 / 2 ^ 27]

/-- The `float32` values nearest to 0.9, 0.85, 0.3, 0.28, 0.1. -/
def cliffScores : List F32 :=
  [F32.round (9 / 10), F32.round (17 / 20), F32.round (3 / 10), F32.round (7 / 25),
   F32.round (1 / 10)]

/-- The category code `t.tags[i][2]`, when row `i` exists and has the column. -/
def categoryAt (tags : List (List String)) (i : Nat) : Option String :=
  match tags[i]? with
  | none => none
  | some tag => tag[2]?

/-- The name `t.tags[i][1]`, when row `i` exists and has the column. -/
def nameAt (tags : List (List String)) (i : Nat) : Option String :=
  match tags[i]? with
  | none => none
  | some tag => tag[1]?

/-- The loop of `postprocess` read over the rows `tags[i:]` side by side with the
scores, instead of through the index. -/
def partitionZip : List (List String) → List F32 → Partition → Option Partition
  | _, [], st => some st
  | [], _ :: _, _ => none
  | tag :: ts, score :: ss, st =>
      match partitionStep [tag] st 0 score with
      | none => none
      | some st1 => partitionZip ts ss st1

/-- A row whose category code is present and is none of `"0"`, `"4"`, `"9"`. -/
def Unrecognized (tag : List String) : Bool :=
  match tag[2]? with
  | some category => category != "0" && category != "4" && category != "9"
  | none => false

/-- Delete every scored taxonomy row with an unrecognized category code together
with its score.  Rows beyond the last score have no score to delete; scores
beyond the last row have no row. -/
def dropUnrecognized : List F32 → List (List String) → List F32 × List (List String)
  | [], tags => ([], tags.filter (fun t => !Unrecognized t))
  | score :: ss, [] => (score :: ss, [])
  | score :: ss, tag :: ts =>
      if Unrecognized tag then dropUnrecognized ss ts
      else (score :: (dropUnrecognized ss ts).1, tag :: (dropUnrecognized ss ts).2)

/-- What the partition loop knows about the rating after the rows before `i`:
`ratingScore` is a number, at least 0, that no rating score seen exceeds, and once
it is above 0 it is the score of the first rating row attaining it, whose name is
`ratingName`. -/
def RatingInv (tags : List (List String)) (scores : List F32) (i : Nat) (st : Partition) :
    Prop :=
  F32.le (F32.fin 0) st.ratingScore = true ∧
  (∀ j, j < i → categoryAt tags j = some "9" →
    F32.lt st.ratingScore (scores.getD j (F32.fin 0)) = false) ∧
  (F32.lt (F32.fin 0) st.ratingScore = true → ∃ k, k < i ∧ categoryAt tags k = some "9" ∧
      nameAt tags k = some st.ratingName ∧ scores.getD k (F32.fin 0) = st.ratingScore ∧
      ∀ j, j < k → categoryAt tags j = some "9" →
        F32.le st.ratingScore (scores.getD j (F32.fin 0)) = false) ∧
  (st.ratingScore = F32.fin 0 → st.ratingName = "")

/-- The score and name slices of each category have the same length. -/
def Balanced (st : Partition) : Prop :=
  st.generalScores.length = st.generalNames.length ∧
  st.characterScores.length = st.characterNames.length

/-- The `i`-th contiguous chunk `output[i*classes .. (i+1)*classes)`. -/
def chunk (output : List F32) (classes i : Nat) : List F32 :=
  (output.drop (i * classes)).take classes

/-- Scores for the demo taxonomy: ratings 0.6, 0.6, 0.1 as `float32`, then 1/2,
1/4, 1 and 7/8. -/
def demoScores : List F32 :=
  [F32.round (3 / 5), F32.round (3 / 5), F32.round (1 / 10), F32.fin (1 / 2), F32.fin (1 / 4),
   F32.fin 1, F32.fin (7 / 8)]

/-- The demo scores with every rating score 0. -/
def zeroRatingScores : List F32 :=
  [F32.fin 0, F32.fin 0, F32.fin 0, F32.fin (1 / 2), F32.fin (1 / 4), F32.fin 1, F32.fin (7 / 8)]

/-- A second score vector for the demo taxonomy. -/
def otherScores : List F32 :=
  [F32.fin 0, F32.fin 1, F32.fin 0, F32.fin 0, F32.fin 1, F32.fin 1, F32.fin 0]

/-! ## `preprocess` -/

/-- Go `image.Point`. -/
structure Point where
  X : Int
  Y : Int
  deriving DecidableEq, Repr

/-- Go `image.Rectangle`. -/
structure Rectangle where
  Min : Point
  Max : Point
  deriving DecidableEq, Repr

/-- Go `image.Rect(x0, y0, x1, y1)`: the corners are put in order. -/
def Rect (x0 y0 x1 y1 : Int) : Rectangle :=
  ⟨⟨if x0 > x1 then x1 else x0, if y0 > y1 then y1 else y0⟩,
   ⟨if x0 > x1 then x0 else x1, if y0 > y1 then y0 else y1⟩⟩

/-- Go `r.Dx()`. -/
def Rectangle.Dx (r : Rectangle) : Int :=
  r.Max.X - r.Min.X

/-- Go `r.Dy()`. -/
def Rectangle.Dy (r : Rectangle) : Int :=
  r.Max.Y - r.Min.Y

/-- Go `r.Empty()`. -/
def Rectangle.Empty (r : Rectangle) : Bool :=
  decide (r.Min.X ≥ r.Max.X) || decide (r.Min.Y ≥ r.Max.Y)

/-- Go `r.Add(p)`. -/
def Rectangle.Add (r : Rectangle) (p : Point) : Rectangle :=
  ⟨⟨r.Min.X + p.X, r.Min.Y + p.Y⟩, ⟨r.Max.X + p.X, r.Max.Y + p.Y⟩⟩

/-- Go `r.Intersect(s)`: the zero rectangle when the intersection is empty. -/
def Rectangle.Intersect (r s : Rectangle) : Rectangle :=
  if Rectangle.Empty
      ⟨⟨if r.Min.X < s.Min.X then s.Min.X else r.Min.X,
        if r.Min.Y < s.Min.Y then s.Min.Y else r.Min.Y⟩,
       ⟨if r.Max.X > s.Max.X then s.Max.X else r.Max.X,
        if r.Max.Y > s.Max.Y then s.Max.Y else r.Max.Y⟩⟩ = true
  then ⟨⟨0, 0⟩, ⟨0, 0⟩⟩
  else
    ⟨⟨if r.Min.X < s.Min.X then s.Min.X else r.Min.X,
      if r.Min.Y < s.Min.Y then s.Min.Y else r.Min.Y⟩,
     ⟨if r.Max.X > s.Max.X then s.Max.X else r.Max.X,
      if r.Max.Y > s.Max.Y then s.Max.Y else r.Max.Y⟩⟩

/-- The `clip` of package `draw` without a mask, run by `draw.Draw` before any
pixel is written: the destination rectangle is cut to the destination bounds and
to the source bounds moved by `r.Min - sp`, and the source point follows the
corner.  It returns the rectangle written and the source pixel that lands on its
corner. -/
def clip (dstBounds r srcBounds : Rectangle) (sp : Point) : Rectangle × Point :=
  ((r.Intersect dstBounds).Intersect (srcBounds.Add ⟨r.Min.X - sp.X, r.Min.Y - sp.Y⟩),
   ⟨sp.X + (((r.Intersect dstBounds).Intersect
        (srcBounds.Add ⟨r.Min.X - sp.X, r.Min.Y - sp.Y⟩)).Min.X - r.Min.X),
    sp.Y + (((r.Intersect dstBounds).Intersect
        (srcBounds.Add ⟨r.Min.X - sp.X, r.Min.Y - sp.Y⟩)).Min.Y - r.Min.Y)⟩)

/-- The letterbox geometry of `preprocess` (lines 163-174): the side of the
square canvas, the offsets, the rectangle passed to `draw.Draw`, the rectangle of
the canvas that `draw.Draw` writes, and the source pixel drawn at its corner. -/
structure Letterbox where
  maxDim : Int
  offsetX : Int
  offsetY : Int
  rect : Rectangle
  drawn : Rectangle
  srcPoint : Point
  deriving DecidableEq, Repr

/-- Lines 163-174 of `preprocess` for a source with bounds `srcBounds`.  Go `/` on
`int` truncates; the source point passed to `draw.Draw` is `image.Point{}`. -/
def letterbox (srcBounds : Rectangle) : Letterbox :=
  let srcW := srcBounds.Dx
  let srcH := srcBounds.Dy
  let maxDim := max srcW srcH
  let offsetX := Int.tdiv (maxDim - srcW) 2
  let offsetY := Int.tdiv (maxDim - srcH) 2
  let rect := Rect offsetX offsetY (offsetX + srcW) (offsetY + srcH)
  { maxDim := maxDim, offsetX := offsetX, offsetY := offsetY, rect := rect,
    drawn := (clip (Rect 0 0 maxDim maxDim) rect srcBounds ⟨0, 0⟩).1,
    srcPoint := (clip (Rect 0 0 maxDim maxDim) rect srcBounds ⟨0, 0⟩).2 }

/-- Canvas columns to the right of the rectangle passed to `draw.Draw`. -/
def Letterbox.trailingX (lb : Letterbox) : Int :=
  lb.maxDim - lb.rect.Max.X

/-- Canvas rows below the rectangle passed to `draw.Draw`. -/
def Letterbox.trailingY (lb : Letterbox) : Int :=
  lb.maxDim - lb.rect.Max.Y

/-- The bounds of a `w` by `h` image whose corner is the origin. -/
def originBounds (w h : Int) : Rectangle :=
  ⟨⟨0, 0⟩, ⟨w, h⟩⟩

/-- What `resized.At(x, y).RGBA()` reports: the `uint32` values `r, g, b`. -/
structure RGBA16 where
  r : Nat
  g : Nat
  b : Nat
  deriving DecidableEq, Repr

/-- The inner loop `for x := range t.size` at row `y`, with `n` columns left
starting from column `x`.  In `b/257.0` the constant is converted to `uint32`, so
the division is integer division; `float32` of the quotient is exact. -/
def flattenRow (resized : Nat → Nat → RGBA16) (y : Nat) : Nat → Nat → List ℚ → List ℚ
  | 0, _, result => result
  | n + 1, x, result =>
      let px := resized x y
      flattenRow resized y n (x + 1)
        (((result ++ [((px.b / 257 : Nat) : ℚ)]) ++ [((px.g / 257 : Nat) : ℚ)])
          ++ [((px.r / 257 : Nat) : ℚ)])

/-- The outer loop `for y := range t.size`, with `n` rows left from row `y`. -/
def flattenRows (resized : Nat → Nat → RGBA16) (size : Nat) : Nat → Nat → List ℚ → List ℚ
  | 0, _, result => result
  | n + 1, y, result =>
      flattenRows resized size n (y + 1) (flattenRow resized y size 0 result)

/-- Lines 179-189 of `preprocess`: the flat output read off the resized canvas. -/
def flatten (resized : Nat → Nat → RGBA16) (size : Nat) : List ℚ :=
  flattenRows resized size size 0 []

/-- The value expected at flat position `k` of the output: pixel `k / 3` in
row-major order, channel blue, green, red for `k % 3 = 0, 1, 2`, divided by 257. -/
def flatValue (resized : Nat → Nat → RGBA16) (size : Nat) (k : Nat) : ℚ :=
  let px := resized ((k / 3) % size) ((k / 3) / size)
  if k % 3 = 0 then ((px.b / 257 : Nat) : ℚ)
  else if k % 3 = 1 then ((px.g / 257 : Nat) : ℚ)
  else ((px.r / 257 : Nat) : ℚ)

/-! ## Lists -/

theorem drop_eq_cons_iff_aux {α : Type} (l : List α) (i : Nat) (a : α) (rest : List α)
    (h : a :: rest = l.drop i) :
    i < l.length ∧ l[i]? = some a ∧ rest = l.drop (i + 1) := by
  have hi : i < l.length := by
    by_contra hcon
    have : l.drop i = [] := List.drop_eq_nil_iff.mpr (by omega)
    rw [this] at h
    cases h
  rw [List.drop_eq_getElem_cons hi] at h
  injection h with h1 h2
  exact ⟨hi, by rw [List.getElem?_eq_getElem hi, h1], h2⟩

/-! ## The order of `float32` -/

theorem f32_lt_irrefl (a : F32) : F32.lt a a = false := by
  cases a <;> simp [F32.lt]

theorem f32_lt_trans {a b c : F32} (h1 : F32.lt a b = true) (h2 : F32.lt b c = true) :
    F32.lt a c = true := by
  cases a <;> cases b <;> cases c <;> simp [F32.lt] at h1 h2 ⊢
  exact lt_trans h1 h2

theorem f32_lt_of_lt_of_le {a b c : F32} (h1 : F32.lt a b = true) (h2 : F32.le b c = true) :
    F32.lt a c = true := by
  cases a <;> cases b <;> cases c <;> simp [F32.lt, F32.le] at h1 h2 ⊢
  exact lt_of_lt_of_le h1 h2

theorem f32_lt_of_le_of_lt {a b c : F32} (h1 : F32.le a b = true) (h2 : F32.lt b c = true) :
    F32.lt a c = true := by
  cases a <;> cases b <;> cases c <;> simp [F32.lt, F32.le] at h1 h2 ⊢
  exact lt_of_le_of_lt h1 h2

theorem f32_le_of_not_lt {a b : F32} (ha : a ≠ F32.nan) (hb : b ≠ F32.nan)
    (h : F32.lt a b = false) : F32.le b a = true := by
  cases a <;> cases b <;> simp [F32.lt, F32.le] at h ha hb ⊢
  exact h

theorem f32_not_lt_of_le {a b : F32} (h : F32.le a b = true) : F32.lt b a = false := by
  cases a <;> cases b <;> simp [F32.lt, F32.le] at h ⊢
  exact h

theorem f32_ne_nan_of_lt {a b : F32} (h : F32.lt a b = true) :
    a ≠ F32.nan ∧ b ≠ F32.nan := by
  cases a <;> cases b <;> simp [F32.lt] at h ⊢

theorem f32_ne_nan_of_le {a b : F32} (h : F32.le a b = true) :
    a ≠ F32.nan ∧ b ≠ F32.nan := by
  cases a <;> cases b <;> simp [F32.le] at h ⊢

theorem f32_le_iff_not_lt {a b : F32} (ha : a ≠ F32.nan) (hb : b ≠ F32.nan) :
    F32.le a b = !F32.lt b a := by
  cases a <;> cases b <;> simp [F32.lt, F32.le] at ha hb ⊢
  rename_i x y
  by_cases h : x ≤ y
  · simp [h, not_lt.mpr h]
  · simp [h, not_le.mp h]

theorem f32_round_ne_nan (x : ℚ) : F32.round x ≠ F32.nan := by
  unfold F32.round
  split_ifs <;> simp

theorem f32_sub_fin_ne_nan (a b : ℚ) : F32.sub (F32.fin a) (F32.fin b) ≠ F32.nan := by
  simp only [F32.sub]
  exact f32_round_ne_nan _

theorem f32_add_fin_ne_nan (a b : ℚ) : F32.add (F32.fin a) (F32.fin b) ≠ F32.nan := by
  simp only [F32.add]
  exact f32_round_ne_nan _

theorem f32_half_ne_nan {a : F32} (h : a ≠ F32.nan) : F32.half a ≠ F32.nan := by
  cases a <;> simp [F32.half] at h ⊢
  exact f32_round_ne_nan _

/-! ## The sort -/

theorem insertLess_perm {α : Type} (less : α → α → Bool) (x : α) :
    ∀ l : List α, (insertLess less x l).Perm (x :: l)
  | [] => List.Perm.refl _
  | y :: rest => by
      unfold insertLess
      split_ifs
      · exact ((insertLess_perm less x rest).cons y).trans (List.Perm.swap x y rest)
      · exact List.Perm.refl _

theorem insertionSortLess_perm {α : Type} (less : α → α → Bool) :
    ∀ (l rev : List α), (insertionSortLess less rev l).Perm (rev ++ l)
  | [], rev => by
      simp only [insertionSortLess, List.append_nil]
      exact List.reverse_perm rev
  | x :: rest, rev => by
      simp only [insertionSortLess]
      refine (insertionSortLess_perm less rest _).trans ?_
      refine ((insertLess_perm less x rev).append_right rest).trans ?_
      simp only [List.cons_append]
      exact List.perm_middle.symm

theorem insertLess_map {α β : Type} (f : α → β) (less : α → α → Bool) (less1 : β → β → Bool)
    (h : ∀ a b, less1 (f a) (f b) = less a b) (x : α) :
    ∀ l : List α, insertLess less1 (f x) (l.map f) = (insertLess less x l).map f
  | [] => rfl
  | y :: rest => by
      simp only [List.map_cons, insertLess, h]
      split_ifs
      · simp [insertLess_map f less less1 h x rest]
      · simp

theorem insertionSortLess_map {α β : Type} (f : α → β) (less : α → α → Bool)
    (less1 : β → β → Bool) (h : ∀ a b, less1 (f a) (f b) = less a b) :
    ∀ (l rev : List α),
      insertionSortLess less1 (rev.map f) (l.map f) = (insertionSortLess less rev l).map f
  | [], rev => by simp [insertionSortLess]
  | x :: rest, rev => by
      simp only [List.map_cons, insertionSortLess]
      rw [insertLess_map f less less1 h x rev]
      exact insertionSortLess_map f less less1 h rest _

theorem insertLessQ_sorted (x : ℚ) :
    ∀ l : List ℚ, l.Sorted (fun a b => a ≤ b) →
      (insertLess (fun a b : ℚ => decide (b < a)) x l).Sorted (fun a b => a ≤ b)
  | [], _ => List.sorted_singleton x
  | y :: rest, hs => by
      unfold insertLess
      by_cases hyx : y < x
      · simp only [hyx, decide_True, if_true]
        refine List.sorted_cons.mpr ⟨?_, insertLessQ_sorted x rest hs.of_cons⟩
        intro b hb
        have hb1 := (insertLess_perm _ x rest).mem_iff.mp hb
        simp only [List.mem_cons] at hb1
        rcases hb1 with rfl | hb1
        · exact le_of_lt hyx
        · exact List.rel_of_sorted_cons hs b hb1
      · simp only [hyx, decide_False, Bool.false_eq_true, if_false]
        refine List.sorted_cons.mpr ⟨?_, hs⟩
        intro b hb
        simp only [List.mem_cons] at hb
        rcases hb with rfl | hb
        · exact not_lt.mp hyx
        · exact le_trans (not_lt.mp hyx) (List.rel_of_sorted_cons hs b hb)

theorem insertionSortLessQ_sorted :
    ∀ (l rev : List ℚ), rev.Sorted (fun a b => a ≤ b) →
      (insertionSortLess (fun a b : ℚ => decide (b < a)) rev l).Sorted (fun a b => a ≥ b)
  | [], rev, hs => by
      simp only [insertionSortLess]
      exact List.pairwise_reverse.mpr hs
  | x :: rest, rev, hs => by
      simp only [insertionSortLess]
      exact insertionSortLessQ_sorted rest _ (insertLessQ_sorted x rev hs)

theorem sortDescQ_sorted (l : List ℚ) : (sortDescQ l).Sorted (fun a b => a ≥ b) :=
  insertionSortLessQ_sorted l [] List.sorted_nil

theorem sortDescQ_perm (l : List ℚ) : (sortDescQ l).Perm l := by
  have := insertionSortLess_perm (fun a b : ℚ => decide (b < a)) l []
  simpa [sortDescQ] using this

/-- Any descending arrangement of the numbers of `l` is `sortDescQ l`: the result
of a sort is determined by the values alone. -/
theorem sortDescQ_unique (l l1 : List ℚ) (hp : l1.Perm l)
    (hs : l1.Sorted (fun a b => a ≥ b)) : l1 = sortDescQ l :=
  List.eq_of_perm_of_sorted (hp.trans (sortDescQ_perm l).symm) hs (sortDescQ_sorted l)

theorem sortDesc_perm (l : List F32) : (sortDesc l).Perm l := by
  have := insertionSortLess_perm (fun a b : F32 => F32.lt b a) l []
  simpa [sortDesc] using this

theorem sortDesc_length (l : List F32) : (sortDesc l).length = l.length :=
  (sortDesc_perm l).length_eq

theorem sortDesc_map_fin (qs : List ℚ) :
    sortDesc (qs.map F32.fin) = (sortDescQ qs).map F32.fin := by
  have := insertionSortLess_map F32.fin (fun a b : ℚ => decide (b < a))
    (fun a b : F32 => F32.lt b a) (by intro a b; rfl) qs []
  simpa [sortDesc, sortDescQ] using this

/-- A list of finite values is the image of a list of rationals. -/
theorem exists_map_fin (l : List F32) (h : ∀ x ∈ l, F32.isFinite x = true) :
    ∃ qs : List ℚ, l = qs.map F32.fin := by
  induction l with
  | nil => exact ⟨[], rfl⟩
  | cons x rest ih =>
      obtain ⟨qs, hqs⟩ := ih (fun y hy => h y (List.mem_cons_of_mem _ hy))
      have hx := h x (List.mem_cons_self _ _)
      cases x with
      | fin q => exact ⟨q :: qs, by simp [hqs]⟩
      | nan => simp [F32.isFinite] at hx
      | ninf => simp [F32.isFinite] at hx
      | pinf => simp [F32.isFinite] at hx

/-! ## Rounding to `float32` -/

theorem rne_spec (t : ℚ) :
    |t - (F32.rne t : ℚ)| ≤ 1 / 2 ∧ (|t - (F32.rne t : ℚ)| = 1 / 2 → F32.rne t % 2 = 0) := by
  have hf0 : ((⌊t⌋ : ℤ) : ℚ) ≤ t := Int.floor_le t
  have hf1 : t < ((⌊t⌋ : ℤ) : ℚ) + 1 := Int.lt_floor_add_one t
  unfold F32.rne
  split_ifs with h1 h2 h3
  · rw [abs_of_nonneg (by linarith)]
    exact ⟨by linarith, fun h => by linarith⟩
  · push_cast
    rw [abs_of_nonpos (by linarith)]
    exact ⟨by linarith, fun h => by linarith⟩
  · rw [abs_of_nonneg (by linarith)]
    exact ⟨by linarith, fun _ => h3⟩
  · push_cast
    rw [abs_of_nonpos (by linarith)]
    exact ⟨by linarith, fun _ => by omega⟩

theorem rne_mono {t s : ℚ} (h : t ≤ s) : F32.rne t ≤ F32.rne s := by
  by_contra hcon
  have hlt : F32.rne s + 1 ≤ F32.rne t := by omega
  have hq : ((F32.rne s : ℤ) : ℚ) + 1 ≤ (F32.rne t : ℚ) := by exact_mod_cast hlt
  obtain ⟨ht, hte⟩ := rne_spec t
  obtain ⟨hs, hse⟩ := rne_spec s
  have ht1 := abs_le.mp ht
  have hs1 := abs_le.mp hs
  have e1 : t - (F32.rne t : ℚ) = -(1 / 2) := by linarith
  have e2 : s - (F32.rne s : ℚ) = 1 / 2 := by linarith
  have e3 : (F32.rne t : ℚ) = (F32.rne s : ℚ) + 1 := by linarith
  have e3i : F32.rne t = F32.rne s + 1 := by exact_mod_cast e3
  have p1 := hte (by rw [e1]; norm_num)
  have p2 := hse (by rw [e2]; norm_num)
  omega

theorem rne_int (n : ℤ) : F32.rne (n : ℚ) = n := by
  unfold F32.rne
  rw [Int.floor_intCast]
  simp

theorem ulp_pos (x : ℚ) : 0 < F32.ulp x := by
  unfold F32.ulp
  exact zpow_pos (by norm_num) _

/-- A multiple of the spacing below `x` is below the nearest grid point. -/
theorem nearest_ge_of_grid (x : ℚ) (n : ℤ) (h : (n : ℚ) * F32.ulp x ≤ x) :
    (n : ℚ) * F32.ulp x ≤ F32.nearest x := by
  have hu := ulp_pos x
  unfold F32.nearest
  have h1 : (n : ℚ) ≤ x / F32.ulp x := (le_div_iff₀ hu).mpr h
  have h2 : n ≤ F32.rne (x / F32.ulp x) := by
    have := rne_mono h1
    rwa [rne_int] at this
  have h3 : (n : ℚ) ≤ (F32.rne (x / F32.ulp x) : ℚ) := by exact_mod_cast h2
  exact mul_le_mul_of_nonneg_right h3 (le_of_lt hu)

/-- A multiple of the spacing above `x` is above the nearest grid point. -/
theorem nearest_le_of_grid (x : ℚ) (n : ℤ) (h : x ≤ (n : ℚ) * F32.ulp x) :
    F32.nearest x ≤ (n : ℚ) * F32.ulp x := by
  have hu := ulp_pos x
  unfold F32.nearest
  have h1 : x / F32.ulp x ≤ (n : ℚ) := (div_le_iff₀ hu).mpr h
  have h2 : F32.rne (x / F32.ulp x) ≤ n := by
    have := rne_mono h1
    rwa [rne_int] at this
  have h3 : (F32.rne (x / F32.ulp x) : ℚ) ≤ (n : ℚ) := by exact_mod_cast h2
  exact mul_le_mul_of_nonneg_right h3 (le_of_lt hu)

theorem expoFrom_range (a : ℚ) : ∀ k : Nat, -126 ≤ F32.expoFrom a k ∧ F32.expoFrom a k ≤ k - 126
  | 0 => by simp [F32.expoFrom]
  | k + 1 => by
      have ih := expoFrom_range a k
      unfold F32.expoFrom
      split_ifs
      · push_cast; constructor <;> omega
      · push_cast; constructor <;> omega

/-- Above the bottom exponent the chosen power of two is at most `a`. -/
theorem expoFrom_pow_le (a : ℚ) : ∀ k : Nat, -126 < F32.expoFrom a k →
    (2 : ℚ) ^ F32.expoFrom a k ≤ a
  | 0 => by simp [F32.expoFrom]
  | k + 1 => by
      intro h
      unfold F32.expoFrom at h ⊢
      split_ifs at h ⊢ with hc
      · exact hc
      · exact expoFrom_pow_le a k h

/-- Below the top exponent `a` is less than the next power of two. -/
theorem expoFrom_lt_pow (a : ℚ) : ∀ k : Nat, F32.expoFrom a k < k - 126 →
    a < (2 : ℚ) ^ (F32.expoFrom a k + 1)
  | 0 => by simp [F32.expoFrom]
  | k + 1 => by
      intro h
      unfold F32.expoFrom at h ⊢
      split_ifs at h ⊢ with hc
      · push_cast at h; omega
      · have hr := (expoFrom_range a k).2
        rcases lt_or_eq_of_le hr with hlt | heq
        · exact expoFrom_lt_pow a k hlt
        · rw [heq]
          have : ((k : ℤ) - 126 + 1) = (k : ℤ) + 1 - 126 := by ring
          rw [this]
          exact not_le.mp hc

theorem expoFrom_mono {a b : ℚ} (hab : a ≤ b) : ∀ k : Nat,
    F32.expoFrom a k ≤ F32.expoFrom b k
  | 0 => by simp [F32.expoFrom]
  | k + 1 => by
      unfold F32.expoFrom
      by_cases ha : (2 : ℚ) ^ ((k : ℤ) + 1 - 126) ≤ a
      · rw [if_pos ha, if_pos (le_trans ha hab)]
      · rw [if_neg ha]
        split_ifs
        · have := (expoFrom_range a k).2
          omega
        · exact expoFrom_mono hab k

theorem expo_range (x : ℚ) : -126 ≤ F32.expo x ∧ F32.expo x ≤ 127 := by
  have := expoFrom_range |x| 253
  unfold F32.expo
  push_cast at this
  constructor <;> omega

theorem expo_pow_le (x : ℚ) (h : -126 < F32.expo x) : (2 : ℚ) ^ F32.expo x ≤ |x| :=
  expoFrom_pow_le |x| 253 h

theorem expo_lt_pow (x : ℚ) (h : F32.expo x < 127) : |x| < (2 : ℚ) ^ (F32.expo x + 1) :=
  expoFrom_lt_pow |x| 253 (by unfold F32.expo at h; push_cast; omega)

theorem expo_mono {x y : ℚ} (h : |x| ≤ |y|) : F32.expo x ≤ F32.expo y :=
  expoFrom_mono h 253

theorem pow_expo_eq (e : ℤ) : (2 : ℚ) ^ e = ((2 ^ 23 : ℤ) : ℚ) * (2 : ℚ) ^ (e - 23) := by
  have h : e = 23 + (e - 23) := by ring
  conv_lhs => rw [h, zpow_add₀ (by norm_num : (2 : ℚ) ≠ 0)]
  norm_num

theorem pow_expo_succ_eq (e : ℤ) :
    (2 : ℚ) ^ (e + 1) = ((2 ^ 24 : ℤ) : ℚ) * (2 : ℚ) ^ (e - 23) := by
  have h : e + 1 = 24 + (e - 23) := by ring
  conv_lhs => rw [h, zpow_add₀ (by norm_num : (2 : ℚ) ≠ 0)]
  norm_num

/-- The nearest grid point is monotone in `x`. -/
theorem nearest_mono {x y : ℚ} (h : x ≤ y) : F32.nearest x ≤ F32.nearest y := by
  have hux := ulp_pos x
  have huy := ulp_pos y
  rcases le_or_lt 0 x with hx | hx
  · -- 0 ≤ x ≤ y
    have hy : 0 ≤ y := le_trans hx h
    have he : F32.expo x ≤ F32.expo y :=
      expo_mono (by rw [abs_of_nonneg hx, abs_of_nonneg hy]; exact h)
    rcases lt_or_eq_of_le he with hlt | heq
    · have hxr := expo_range x
      have hyr := expo_range y
      have h1 : y ≥ (2 : ℚ) ^ F32.expo y := by
        have := expo_pow_le y (by omega)
        rwa [abs_of_nonneg hy] at this
      have h2 : x < (2 : ℚ) ^ (F32.expo x + 1) := by
        have := expo_lt_pow x (by omega)
        rwa [abs_of_nonneg hx] at this
      have g1 : (2 : ℚ) ^ F32.expo y ≤ F32.nearest y := by
        rw [pow_expo_eq]
        apply nearest_ge_of_grid
        unfold F32.ulp
        rw [← pow_expo_eq]
        exact h1
      have g2 : F32.nearest x ≤ (2 : ℚ) ^ (F32.expo x + 1) := by
        rw [pow_expo_succ_eq]
        apply nearest_le_of_grid
        unfold F32.ulp
        rw [← pow_expo_succ_eq]
        exact le_of_lt h2
      have g3 : (2 : ℚ) ^ (F32.expo x + 1) ≤ (2 : ℚ) ^ F32.expo y :=
        zpow_le_zpow_right₀ (by norm_num) (by omega)
      linarith
    · unfold F32.nearest F32.ulp
      rw [heq]
      have hu : 0 < (2 : ℚ) ^ (F32.expo y - 23) := zpow_pos (by norm_num) _
      have h1 : x / (2 : ℚ) ^ (F32.expo y - 23) ≤ y / (2 : ℚ) ^ (F32.expo y - 23) :=
        div_le_div_of_nonneg_right h (le_of_lt hu)
      have h2 := rne_mono h1
      have h3 : (F32.rne (x / (2 : ℚ) ^ (F32.expo y - 23)) : ℚ) ≤
          (F32.rne (y / (2 : ℚ) ^ (F32.expo y - 23)) : ℚ) := by exact_mod_cast h2
      exact mul_le_mul_of_nonneg_right h3 (le_of_lt hu)
  · rcases le_or_lt y 0 with hy | hy
    · -- x ≤ y ≤ 0
      have he : F32.expo y ≤ F32.expo x :=
        expo_mono (by rw [abs_of_neg hx, abs_of_nonpos hy]; linarith)
      rcases lt_or_eq_of_le he with hlt | heq
      · have hxr := expo_range x
        have hyr := expo_range y
        have h1 : x ≤ -(2 : ℚ) ^ F32.expo x := by
          have := expo_pow_le x (by omega)
          rw [abs_of_neg hx] at this
          linarith
        have h2 : -(2 : ℚ) ^ (F32.expo y + 1) < y := by
          have := expo_lt_pow y (by omega)
          rw [abs_of_nonpos hy] at this
          linarith
        have g1 : F32.nearest x ≤ -(2 : ℚ) ^ F32.expo x := by
          have e : -(2 : ℚ) ^ F32.expo x = ((-(2 ^ 23) : ℤ) : ℚ) * F32.ulp x := by
            unfold F32.ulp
            rw [pow_expo_eq (F32.expo x)]
            push_cast
            ring
          rw [e]
          apply nearest_le_of_grid
          rw [← e]
          exact h1
        have g2 : -(2 : ℚ) ^ (F32.expo y + 1) ≤ F32.nearest y := by
          have e : -(2 : ℚ) ^ (F32.expo y + 1) = ((-(2 ^ 24) : ℤ) : ℚ) * F32.ulp y := by
            unfold F32.ulp
            rw [pow_expo_succ_eq (F32.expo y)]
            push_cast
            ring
          rw [e]
          apply nearest_ge_of_grid
          rw [← e]
          exact le_of_lt h2
        have g3 : (2 : ℚ) ^ (F32.expo y + 1) ≤ (2 : ℚ) ^ F32.expo x :=
          zpow_le_zpow_right₀ (by norm_num) (by omega)
        linarith
      · unfold F32.nearest F32.ulp
        rw [heq]
        have hu : 0 < (2 : ℚ) ^ (F32.expo x - 23) := zpow_pos (by norm_num) _
        have h1 : x / (2 : ℚ) ^ (F32.expo x - 23) ≤ y / (2 : ℚ) ^ (F32.expo x - 23) :=
          div_le_div_of_nonneg_right h (le_of_lt hu)
        have h2 := rne_mono h1
        have h3 : (F32.rne (x / (2 : ℚ) ^ (F32.expo x - 23)) : ℚ) ≤
            (F32.rne (y / (2 : ℚ) ^ (F32.expo x - 23)) : ℚ) := by exact_mod_cast h2
        exact mul_le_mul_of_nonneg_right h3 (le_of_lt hu)
    · -- x < 0 < y
      have g1 : F32.nearest x ≤ 0 := by
        have := nearest_le_of_grid x 0 (by simp; exact le_of_lt hx)
        simpa using this
      have g2 : 0 ≤ F32.nearest y := by
        have := nearest_ge_of_grid y 0 (by simp; exact le_of_lt hy)
        simpa using this
      linarith

/-- Rounding to `float32` is monotone. -/
theorem round_mono {x y : ℚ} (h : x ≤ y) : F32.le (F32.round x) (F32.round y) = true := by
  have hm := nearest_mono h
  have hp : (0 : ℚ) < 2 ^ (128 : ℕ) := by positivity
  unfold F32.round
  split_ifs <;> simp [F32.le] <;> linarith

theorem round_eq_fin_iff (x q : ℚ) :
    F32.round x = F32.fin q ↔
      F32.nearest x = q ∧ -(2 : ℚ) ^ (128 : ℕ) < q ∧ q < (2 : ℚ) ^ (128 : ℕ) := by
  unfold F32.round
  split_ifs with h1 h2
  · constructor
    · intro h; cases h
    · rintro ⟨rfl, _, h3⟩; linarith
  · constructor
    · intro h; cases h
    · rintro ⟨rfl, h3, _⟩; linarith
  · constructor
    · intro h
      injection h with h
      subst h
      exact ⟨rfl, not_le.mp h2, not_le.mp h1⟩
    · rintro ⟨rfl, _, _⟩; rfl

theorem representable_iff (x : ℚ) :
    Representable x ↔
      F32.nearest x = x ∧ -(2 : ℚ) ^ (128 : ℕ) < x ∧ x < (2 : ℚ) ^ (128 : ℕ) :=
  round_eq_fin_iff x x

theorem expo_double (x : ℚ) :
    F32.expo (2 * x) = F32.expo x ∨ F32.expo (2 * x) = F32.expo x + 1 := by
  have habs : |2 * x| = 2 * |x| := by rw [abs_mul, abs_two]
  have hlo : F32.expo x ≤ F32.expo (2 * x) :=
    expo_mono (by rw [habs]; linarith [abs_nonneg x])
  have hhi : F32.expo (2 * x) ≤ F32.expo x + 1 := by
    by_contra hcon
    have hr := expo_range x
    have hr2 := expo_range (2 * x)
    have h1 := expo_lt_pow x (by omega)
    have h2 := expo_pow_le (2 * x) (by omega)
    have h3 : (2 : ℚ) ^ (F32.expo x + 1 + 1) ≤ (2 : ℚ) ^ F32.expo (2 * x) :=
      zpow_le_zpow_right₀ (by norm_num) (by omega)
    rw [zpow_add_one₀ (by norm_num : (2 : ℚ) ≠ 0)] at h3
    rw [habs] at h2
    linarith
  omega

/-- Twice a `float32` value is a `float32` value unless it overflows. -/
theorem representable_double (x : ℚ) (hx : Representable x)
    (hlo : -(2 : ℚ) ^ (128 : ℕ) < 2 * x) (hhi : 2 * x < (2 : ℚ) ^ (128 : ℕ)) :
    Representable (2 * x) := by
  rw [representable_iff] at hx ⊢
  refine ⟨?_, hlo, hhi⟩
  obtain ⟨hn, _, _⟩ := hx
  have hu := ulp_pos x
  have hm : x / F32.ulp x = (F32.rne (x / F32.ulp x) : ℚ) := by
    unfold F32.nearest at hn
    field_simp
    linarith
  rcases expo_double x with he | he
  · have hu2 : F32.ulp (2 * x) = F32.ulp x := by unfold F32.ulp; rw [he]
    unfold F32.nearest
    rw [hu2]
    have e : 2 * x / F32.ulp x = ((2 * F32.rne (x / F32.ulp x) : ℤ) : ℚ) := by
      push_cast
      rw [← hm]
      ring
    rw [e, rne_int]
    push_cast
    rw [← hm]
    field_simp
  · have hu2 : F32.ulp (2 * x) = 2 * F32.ulp x := by
      unfold F32.ulp
      rw [he, show F32.expo x + 1 - 23 = (F32.expo x - 23) + 1 by ring,
        zpow_add_one₀ (by norm_num : (2 : ℚ) ≠ 0)]
      ring
    unfold F32.nearest
    rw [hu2]
    have e : 2 * x / (2 * F32.ulp x) = ((F32.rne (x / F32.ulp x) : ℤ) : ℚ) := by
      rw [← hm]
      field_simp
      ring
    rw [e, rne_int, ← hm]
    field_simp
    ring

theorem round_top : F32.round ((2 : ℚ) ^ (128 : ℕ)) = F32.pinf := by
  decide!

theorem round_bottom : F32.round (-(2 : ℚ) ^ (128 : ℕ)) = F32.ninf := by
  decide!

/-- A sum of two `float32` values that does not overflow rounds to a value
between twice the smaller and twice the larger. -/
theorem round_add_between (a b y : ℚ) (ha : Representable a) (hb : Representable b)
    (hab : b ≤ a) (hy : F32.round (a + b) = F32.fin y) : 2 * b ≤ y ∧ y ≤ 2 * a := by
  have hyb := (round_eq_fin_iff (a + b) y).mp hy
  constructor
  · by_cases h1 : (2 : ℚ) ^ (128 : ℕ) ≤ 2 * b
    · have hm := round_mono (show (2 : ℚ) ^ (128 : ℕ) ≤ a + b by linarith)
      rw [round_top, hy] at hm
      simp [F32.le] at hm
    · by_cases h2 : 2 * b ≤ -(2 : ℚ) ^ (128 : ℕ)
      · linarith [hyb.2.1]
      · have hr := representable_double b hb (not_le.mp h2) (not_le.mp h1)
        have hm := round_mono (show 2 * b ≤ a + b by linarith)
        rw [hr, hy] at hm
        simpa [F32.le] using hm
  · by_cases h1 : 2 * a ≤ -(2 : ℚ) ^ (128 : ℕ)
    · have hm := round_mono (show a + b ≤ -(2 : ℚ) ^ (128 : ℕ) by linarith)
      rw [round_bottom, hy] at hm
      simp [F32.le] at hm
    · by_cases h2 : (2 : ℚ) ^ (128 : ℕ) ≤ 2 * a
      · linarith [hyb.2.2]
      · have hr := representable_double a ha (not_le.mp h1) (not_le.mp h2)
        have hm := round_mono (show a + b ≤ 2 * a by linarith)
        rw [hr, hy] at hm
        simpa [F32.le] using hm

/-- The `float32` midpoint of two `float32` values, when finite, lies between
them. -/
theorem midpoint_between (a b t : ℚ) (ha : Representable a) (hb : Representable b)
    (hab : b ≤ a) (ht : F32.half (F32.add (F32.fin a) (F32.fin b)) = F32.fin t) :
    b ≤ t ∧ t ≤ a := by
  simp only [F32.add] at ht
  cases hy : F32.round (a + b) with
  | nan => rw [hy] at ht; simp [F32.half] at ht
  | ninf => rw [hy] at ht; simp [F32.half] at ht
  | pinf => rw [hy] at ht; simp [F32.half] at ht
  | fin y =>
      rw [hy] at ht
      simp only [F32.half] at ht
      obtain ⟨h1, h2⟩ := round_add_between a b y ha hb hab hy
      have m1 := round_mono (show b ≤ y / 2 by linarith)
      have m2 := round_mono (show y / 2 ≤ a by linarith)
      rw [ht] at m1 m2
      rw [hb] at m1
      rw [ha] at m2
      exact ⟨by simpa [F32.le] using m1, by simpa [F32.le] using m2⟩

/-! ## `mcutThreshold` -/

theorem difsOf_length : ∀ s : List F32, (difsOf s).length = s.length - 1
  | [] => rfl
  | [_] => rfl
  | a :: b :: rest => by
      have := difsOf_length (b :: rest)
      simp only [difsOf, List.length_cons] at this ⊢
      omega

theorem difsOf_getD : ∀ (s : List F32) (i : Nat), i < s.length - 1 →
    (difsOf s).getD i (F32.fin 0) = gapAt s i
  | [], i, h => by simp at h
  | [_], i, h => by simp at h
  | a :: b :: rest, 0, _ => by simp [difsOf, gapAt]
  | a :: b :: rest, i + 1, h => by
      have := difsOf_getD (b :: rest) i (by simp at h ⊢; omega)
      simpa [difsOf, gapAt] using this

theorem gapAt_map_fin_ne_nan (qs : List ℚ) (i : Nat) :
    gapAt (qs.map F32.fin) i ≠ F32.nan := by
  unfold gapAt
  have h : ∀ j, ∃ q, (qs.map F32.fin).getD j (F32.fin 0) = F32.fin q := by
    intro j
    rw [List.getD_eq_getElem?_getD, List.getElem?_map]
    cases qs[j]? <;> simp
  obtain ⟨a, ha⟩ := h i
  obtain ⟨b, hb⟩ := h (i + 1)
  rw [ha, hb]
  exact f32_sub_fin_ne_nan a b

/-- On values none of which is NaN the scan keeps the first index of the
running maximum. -/
theorem scanMax_spec (D : List F32) (hnn : ∀ j, j < D.length → D.getD j (F32.fin 0) ≠ F32.nan) :
    ∀ (rest : List F32) (i : Nat) (m : F32) (k : Nat),
    rest = D.drop i → k < i → i ≤ D.length → D.getD k (F32.fin 0) = m →
    (∀ j, j < i → F32.lt m (D.getD j (F32.fin 0)) = false) →
    (∀ j, j < k → F32.lt (D.getD j (F32.fin 0)) m = true) →
    (scanMax rest i m k).2 < D.length ∧
    D.getD (scanMax rest i m k).2 (F32.fin 0) = (scanMax rest i m k).1 ∧
    (∀ j, j < D.length → F32.lt (scanMax rest i m k).1 (D.getD j (F32.fin 0)) = false) ∧
    (∀ j, j < (scanMax rest i m k).2 →
      F32.lt (D.getD j (F32.fin 0)) (scanMax rest i m k).1 = true) := by
  intro rest
  induction rest with
  | nil =>
      intro i m k hrest hki hi hk hle hlt
      have hlen : D.length ≤ i := List.drop_eq_nil_iff.mp hrest.symm
      have hi2 : i = D.length := le_antisymm hi hlen
      subst hi2
      exact ⟨hki, hk, hle, hlt⟩
  | cons d rest ih =>
      intro i m k hrest hki hi hk hle hlt
      obtain ⟨hil, hd, hrest1⟩ := drop_eq_cons_iff_aux D i d rest hrest
      have hdi : D.getD i (F32.fin 0) = d := by rw [List.getD_eq_getElem?_getD, hd]; rfl
      unfold scanMax
      by_cases hgt : F32.lt m d = true
      · rw [if_pos hgt]
        refine ih (i + 1) d i hrest1 (by omega) (by omega) hdi ?_ ?_
        · intro j hj
          rcases Nat.lt_succ_iff_lt_or_eq.mp hj with h1 | h1
          · cases hc : F32.lt d (D.getD j (F32.fin 0)) with
            | false => rfl
            | true =>
                have := f32_lt_trans hgt hc
                rw [hle j h1] at this
                cases this
          · rw [h1, hdi]; exact f32_lt_irrefl d
        · intro j hj
          have hmn : m ≠ F32.nan := (f32_ne_nan_of_lt hgt).1
          have hjn : D.getD j (F32.fin 0) ≠ F32.nan := hnn j (by omega)
          exact f32_lt_of_le_of_lt (f32_le_of_not_lt hmn hjn (hle j hj)) hgt
      · rw [if_neg hgt]
        refine ih (i + 1) m k hrest1 (by omega) (by omega) hk ?_ hlt
        intro j hj
        rcases Nat.lt_succ_iff_lt_or_eq.mp hj with h1 | h1
        · exact hle j h1
        · rw [h1, hdi]; simp [hgt]

/-- The first maximal gap of a list is unique. -/
theorem isFirstMaxGap_unique {s : List F32} {k k1 : Nat} (h : IsFirstMaxGap s k)
    (h1 : IsFirstMaxGap s k1) : k = k1 := by
  rcases Nat.lt_trichotomy k k1 with hlt | heq | hgt
  · have a := h1.2.2 k hlt
    have b := h.2.1 k1 h1.1
    rw [f32_not_lt_of_le ?_] at a
    · cases a
    · have hn := f32_ne_nan_of_lt a
      exact f32_le_of_not_lt hn.1 hn.2 b
  · exact heq
  · have a := h.2.2 k1 hgt
    have b := h1.2.1 k h.1
    rw [f32_not_lt_of_le ?_] at a
    · cases a
    · have hn := f32_ne_nan_of_lt a
      exact f32_le_of_not_lt hn.1 hn.2 b

/-- The first maximal gap of a list of exact numbers is unique. -/
theorem isFirstMaxGapExact_unique {s : List ℚ} {k k1 : Nat} (h : IsFirstMaxGapExact s k)
    (h1 : IsFirstMaxGapExact s k1) : k = k1 := by
  rcases Nat.lt_trichotomy k k1 with hlt | heq | hgt
  · exact absurd (lt_of_lt_of_le (h1.2.2 k hlt) (h.2.1 k1 h1.1)) (lt_irrefl _)
  · exact heq
  · exact absurd (lt_of_lt_of_le (h.2.2 k1 hgt) (h1.2.1 k h.1)) (lt_irrefl _)

theorem heap_set_last (heap : Heap) (data s : List F32) :
    (heap ++ [data]).set heap.length s = heap ++ [s] := by
  induction heap with
  | nil => rfl
  | cons a rest ih => simp [List.set, ih]

theorem heap_get_last (heap : Heap) (s : List F32) : (heap ++ [s])[heap.length]? = some s := by
  induction heap with
  | nil => rfl
  | cons a rest ih => simp

/-- The call allocates one array, the sorted clone, and computes the threshold
from the values of `scores`. -/
theorem mcutThresholdRun_eq_core (heap : Heap) (scores : Nat) (data : List F32)
    (h : heap[scores]? = some data) :
    mcutThresholdRun heap scores =
      (mcutCore data).map (fun t => (heap ++ [sortDesc data], t)) := by
  unfold mcutThresholdRun mcutCore
  rw [h]
  simp only [heap_set_last, heap_get_last]
  split_ifs with h0
  · rfl
  · cases difsOf (sortDesc data) with
    | nil => rfl
    | cons d0 rest =>
        simp only
        cases (sortDesc data)[(scanMax rest 1 d0 0).2]? <;>
          cases (sortDesc data)[(scanMax rest 1 d0 0).2 + 1]? <;> rfl

theorem mcutThreshold_eq_core (scores : List F32) : mcutThreshold scores = mcutCore scores := by
  unfold mcutThreshold
  rw [mcutThresholdRun_eq_core [scores] 0 scores rfl]
  cases mcutCore scores <;> rfl

/-- On at least two finite scores the threshold is the `float32` midpoint at the
first maximal `float32` gap of the sorted scores. -/
theorem mcutCore_spec (scores : List F32) (hfin : ∀ x ∈ scores, F32.isFinite x = true)
    (h : 2 ≤ scores.length) :
    ∃ k, IsFirstMaxGap (sortDesc scores) k ∧
      mcutCore scores =
        some (F32.half (F32.add ((sortDesc scores).getD k (F32.fin 0))
          ((sortDesc scores).getD (k + 1) (F32.fin 0)))) := by
  obtain ⟨qs, hqs⟩ := exists_map_fin scores hfin
  have hlen := sortDesc_length scores
  have hdl := difsOf_length (sortDesc scores)
  have hsq : sortDesc scores = (sortDescQ qs).map F32.fin := by rw [hqs, sortDesc_map_fin]
  unfold mcutCore
  rw [if_neg (by omega)]
  cases hD : difsOf (sortDesc scores) with
  | nil => rw [hD] at hdl; simp at hdl; omega
  | cons d0 rest =>
      simp only
      have hgap : ∀ j, j < (sortDesc scores).length - 1 →
          (d0 :: rest).getD j (F32.fin 0) = gapAt (sortDesc scores) j := by
        intro j hj
        rw [← hD]; exact difsOf_getD _ j hj
      have hDlen : (d0 :: rest).length = (sortDesc scores).length - 1 := by rw [← hD]; exact hdl
      have hnn : ∀ j, j < (d0 :: rest).length → (d0 :: rest).getD j (F32.fin 0) ≠ F32.nan := by
        intro j hj
        rw [hgap j (by omega), hsq]
        exact gapAt_map_fin_ne_nan _ j
      have hspec := scanMax_spec (d0 :: rest) hnn rest 1 d0 0 (by simp) (by omega) (by simp)
        (by simp) (by intro j hj; have : j = 0 := by omega
                      subst this; simp [f32_lt_irrefl]) (by intro j hj; omega)
      obtain ⟨hk, hval, hmax, hfirst⟩ := hspec
      set k := (scanMax rest 1 d0 0).2 with hkdef
      have hkl : k < (sortDesc scores).length - 1 := by rw [← hDlen]; exact hk
      refine ⟨k, ⟨hkl, ?_, ?_⟩, ?_⟩
      · intro i hi
        rw [← hgap i hi, ← hgap k hkl, hval]
        exact hmax i (by rw [hDlen]; exact hi)
      · intro i hi
        rw [← hgap i (by omega), ← hgap k hkl, hval]
        exact hfirst i hi
      · have h1 : k < (sortDesc scores).length := by omega
        have h2 : k + 1 < (sortDesc scores).length := by omega
        rw [List.getElem?_eq_getElem h1, List.getElem?_eq_getElem h2,
          List.getD_eq_getElem _ _ h1, List.getD_eq_getElem _ _ h2]

/-- C1 as stated fails at the `float32` values `1`, `1/2 + 2^-24`, `2^-23 - 2^-27`:
read as exact numbers their larger gap is the second one, but the two gaps
round to the same `float32`, so the code cuts at index 0 and returns `3/4`, not
the exact midpoint at index 1. -/
theorem mcutThreshold_exact_midpoint_counterexample :
    (∀ q ∈ tieScores, Representable q) ∧
    mcutThreshold (tieScores.map F32.fin) = some (F32.fin (3 / 4)) ∧
    ¬ ∃ k, IsFirstMaxGapExact (sortDescQ tieScores) k ∧
      mcutThreshold (tieScores.map F32.fin) =
        some (F32.fin (((sortDescQ tieScores).getD k 0 +
          (sortDescQ tieScores).getD (k + 1) 0) / 2)) := by
  refine ⟨by decide!, by decide!, ?_⟩
  rintro ⟨k, hk, h⟩
  have hk1 : k = 1 := isFirstMaxGapExact_unique hk (by decide!)
  subst hk1
  revert h
  decide!

/-- C1 amended: for every list of at least two finite `float32` scores,
`mcutThreshold` returns the `float32` midpoint `(s[k] + s[k+1]) / 2` (sum rounded,
then halved), where `s` is the list in descending order (a descending
permutation of the input) and `k` the first index at which the `float32` gap
`s[i] - s[i+1]` is maximal; such a `k` exists; the call allocates the sorted clone
and leaves every array that existed before it, the one of `scores` included, as
it was. -/
theorem mcutThreshold_float_midpoint (scores : List F32)
    (hfin : ∀ x ∈ scores, F32.isFinite x = true) (h : 2 ≤ scores.length) :
    (sortDesc scores).Perm scores ∧
    (sortDesc scores).Pairwise (fun a b => F32.le b a = true) ∧
    (∃ k, IsFirstMaxGap (sortDesc scores) k) ∧
    ∀ k, IsFirstMaxGap (sortDesc scores) k →
      mcutThreshold scores =
        some (F32.half (F32.add ((sortDesc scores).getD k (F32.fin 0))
          ((sortDesc scores).getD (k + 1) (F32.fin 0)))) ∧
      ∀ (heap : Heap) (ref : Nat), heap[ref]? = some scores →
        ∃ heap1, mcutThresholdRun heap ref =
            some (heap1, F32.half (F32.add ((sortDesc scores).getD k (F32.fin 0))
              ((sortDesc scores).getD (k + 1) (F32.fin 0)))) ∧
          heap1[ref]? = some scores ∧ ∀ r, r < heap.length → heap1[r]? = heap[r]? := by
  obtain ⟨k0, hk0, hcore⟩ := mcutCore_spec scores hfin h
  refine ⟨sortDesc_perm scores, ?_, ⟨k0, hk0⟩, ?_⟩
  · obtain ⟨qs, hqs⟩ := exists_map_fin scores hfin
    rw [hqs, sortDesc_map_fin, List.pairwise_map]
    refine (sortDescQ_sorted qs).imp ?_
    intro a b hab
    simpa [F32.le] using hab
  · intro k hk
    have hkk : k = k0 := isFirstMaxGap_unique hk hk0
    subst hkk
    refine ⟨by rw [mcutThreshold_eq_core, hcore], ?_⟩
    intro heap ref href
    refine ⟨heap ++ [sortDesc scores], ?_, ?_, ?_⟩
    · rw [mcutThresholdRun_eq_core heap ref scores href, hcore]
      rfl
    · have hr : ref < heap.length := by
        by_contra hcon
        rw [List.getElem?_eq_none (by omega)] at href
        cases href
      rw [List.getElem?_append_left hr]
      exact href
    · intro r hr
      exact List.getElem?_append_left hr

/-- C1 amended at the `float32` values nearest to 0.9, 0.85, 0.3, 0.28, 0.1: the
first maximal gap is at index 1 and the threshold is `2411725 / 4194304`, the
`float32` next to 0.575. -/
theorem mcutThreshold_float_midpoint_witness :
    IsFirstMaxGap (sortDesc cliffScores) 1 ∧
    F32.half (F32.add ((sortDesc cliffScores).getD 1 (F32.fin 0))
      ((sortDesc cliffScores).getD (1 + 1) (F32.fin 0))) = F32.fin (2411725 / 4194304) ∧
    mcutThreshold cliffScores =
      some (F32.half (F32.add ((sortDesc cliffScores).getD 1 (F32.fin 0))
        ((sortDesc cliffScores).getD (1 + 1) (F32.fin 0)))) :=
  ⟨by decide!, by decide!,
    ((mcutThreshold_float_midpoint cliffScores (by decide!) (by decide!)).2.2.2 1
      (by decide!)).1⟩

/-! ## `filterTags` -/

theorem filterTagsLoop_eq (scores : List F32) (threshold : F32) :
    ∀ (rest : List String) (idx : Nat) (result : List String),
      rest.length + idx ≤ scores.length →
      filterTagsLoop scores threshold rest idx result =
        some (result ++ keptNames (scores.drop idx) rest threshold) := by
  intro rest
  induction rest with
  | nil => intro idx result _; simp [filterTagsLoop, keptNames]
  | cons tagName rest ih =>
      intro idx result hlen
      have hlen1 : rest.length + 1 + idx ≤ scores.length := by
        simpa [List.length_cons] using hlen
      have hi : idx < scores.length := by omega
      have hrec := fun result => ih (idx + 1) result (by omega)
      unfold filterTagsLoop
      rw [List.getElem?_eq_getElem hi]
      simp only
      have hdrop := List.drop_eq_getElem_cons hi
      by_cases hlt : F32.lt scores[idx] threshold = true
      · rw [if_pos hlt, hrec]
        unfold keptNames
        rw [hdrop, List.zip_cons_cons, List.filter_cons_of_neg (by simp [hlt])]
      · rw [if_neg hlt, hrec]
        unfold keptNames
        rw [hdrop, List.zip_cons_cons, List.filter_cons_of_pos (by simpa using hlt)]
        simp

theorem filterTags_eq (scores : List F32) (names : List String) (threshold : F32)
    (h : names.length ≤ scores.length) :
    filterTags scores names threshold = some (keptNames scores names threshold) := by
  unfold filterTags
  rw [filterTagsLoop_eq scores threshold names 0 [] (by simpa using h)]
  simp

theorem keptNames_append (s1 s2 : List F32) (n1 n2 : List String) (threshold : F32)
    (h : s1.length = n1.length) :
    keptNames (s1 ++ s2) (n1 ++ n2) threshold =
      keptNames s1 n1 threshold ++ keptNames s2 n2 threshold := by
  simp [keptNames, List.zip_append h]

theorem keptNames_length (scores : List F32) (names : List String) (threshold : F32)
    (h : scores.length = names.length) :
    (keptNames scores names threshold).length =
      (scores.filter (fun x => !F32.lt x threshold)).length := by
  have hfst : (scores.zip names).map Prod.fst = scores :=
    List.map_fst_zip scores names (le_of_eq h)
  have : scores.filter (fun x => !F32.lt x threshold) =
      ((scores.zip names).filter (fun p => !F32.lt p.1 threshold)).map Prod.fst := by
    conv_lhs => rw [← hfst]
    rw [List.filter_map]
    rfl
  rw [this]
  simp [keptNames]

/-- C5 as stated fails under a NaN threshold: `score < NaN` is false, so the name
is kept, while `score >= NaN` holds of no score. -/
theorem filterTags_at_least_counterexample :
    filterTags [F32.fin (1 / 2)] ["a"] F32.nan = some ["a"] ∧
    namesAtLeast [F32.fin (1 / 2)] ["a"] F32.nan = [] ∧
    ¬ (filterTags [F32.fin (1 / 2)] ["a"] F32.nan =
        some (namesAtLeast [F32.fin (1 / 2)] ["a"] F32.nan)) := by
  refine ⟨by decide!, by decide!, by decide!⟩

/-- C5 amended: on lists of equal length `filterTags` returns the names at the
positions whose score is not below the threshold in the sense of Go `<`, in list
order: the result is a sublist of `names`, and around any position it is the
result for the names before it, then the name at that position unless its score
is below the threshold, then the result for the names after it.  When neither
the threshold nor a score is NaN these are the names with `score >= threshold`
(kept at equality, dropped strictly below); a NaN score is kept, and under a NaN
threshold every name is kept. -/
theorem filterTags_keeps_not_below (scores : List F32) (names : List String)
    (threshold : F32) (h : scores.length = names.length) :
    filterTags scores names threshold = some (keptNames scores names threshold) ∧
    (keptNames scores names threshold).Sublist names ∧
    (∀ (s1 s2 : List F32) (v : F32) (n1 n2 : List String) (x : String),
      scores = s1 ++ v :: s2 → names = n1 ++ x :: n2 → s1.length = n1.length →
      filterTags scores names threshold =
        some (keptNames s1 n1 threshold ++ (if F32.lt v threshold = true then [] else [x]) ++
          keptNames s2 n2 threshold) ∧
      (v = F32.nan → F32.lt v threshold = false) ∧
      (threshold ≠ F32.nan → v ≠ F32.nan →
        (F32.lt v threshold = true ↔ F32.le threshold v = false)) ∧
      (F32.isFinite v = true → F32.lt v v = false)) ∧
    (threshold ≠ F32.nan → (∀ v ∈ scores, v ≠ F32.nan) →
      keptNames scores names threshold = namesAtLeast scores names threshold) ∧
    (threshold = F32.nan → keptNames scores names threshold = names) := by
  have hsnd : (scores.zip names).map Prod.snd = names :=
    List.map_snd_zip scores names (le_of_eq h.symm)
  refine ⟨filterTags_eq scores names threshold (le_of_eq h.symm), ?_, ?_, ?_, ?_⟩
  · have hsub : (((scores.zip names).filter (fun p => !F32.lt p.1 threshold)).map
        Prod.snd).Sublist ((scores.zip names).map Prod.snd) :=
      (List.filter_sublist _).map Prod.snd
    rw [hsnd] at hsub
    exact hsub
  · intro s1 s2 v n1 n2 x hs hn h1
    refine ⟨?_, ?_, ?_, ?_⟩
    · rw [filterTags_eq scores names threshold (le_of_eq h.symm), hs, hn,
        keptNames_append _ _ _ _ _ h1]
      have hcons : keptNames (v :: s2) (x :: n2) threshold =
          (if F32.lt v threshold = true then [] else [x]) ++ keptNames s2 n2 threshold := by
        by_cases hv : F32.lt v threshold = true <;> simp [keptNames, hv]
      rw [hcons, List.append_assoc]
    · intro hv
      subst hv
      rfl
    · intro ht hv
      rw [f32_le_iff_not_lt ht hv]
      cases F32.lt v threshold <;> simp
    · intro _
      exact f32_lt_irrefl v
  · intro ht hv
    unfold keptNames namesAtLeast
    congr 1
    apply List.filter_congr
    intro p hp
    have hp1 : p.1 ∈ scores := (List.of_mem_zip hp).1
    rw [f32_le_iff_not_lt ht (hv p.1 hp1)]
  · intro ht
    subst ht
    unfold keptNames
    have hall : (scores.zip names).filter (fun p => !F32.lt p.1 F32.nan) = scores.zip names := by
      apply List.filter_eq_self.mpr
      intro p _
      cases p.1 <;> rfl
    rw [hall, hsnd]

/-- C5 amended at scores `1/2, 1/4, 3/8`, names `a, b, c` and threshold `3/8`:
`a` and `c` are kept in that order, `c` at equality. -/
theorem filterTags_keeps_not_below_witness :
    filterTags [F32.fin (1 / 2), F32.fin (1 / 4), F32.fin (3 / 8)] ["a", "b", "c"]
        (F32.fin (3 / 8)) =
      some (keptNames [F32.fin (1 / 2), F32.fin (1 / 4), F32.fin (3 / 8)] ["a", "b", "c"]
        (F32.fin (3 / 8))) ∧
    keptNames [F32.fin (1 / 2), F32.fin (1 / 4), F32.fin (3 / 8)] ["a", "b", "c"]
      (F32.fin (3 / 8)) = ["a", "c"] :=
  ⟨(filterTags_keeps_not_below [F32.fin (1 / 2), F32.fin (1 / 4), F32.fin (3 / 8)]
      ["a", "b", "c"] (F32.fin (3 / 8)) (by decide)).1, by decide!⟩

/-! ## Filtering at the MCut threshold -/

/-- A threshold strictly between two neighbours of a descending list splits it
at that place. -/
theorem filter_of_sorted_cut (s : List ℚ) (hs : s.Sorted (fun a b => a ≥ b)) (k : Nat)
    (hk : k + 1 < s.length) (thr : ℚ) (hhi : thr ≤ s.getD k 0)
    (hlo : s.getD (k + 1) 0 < thr) :
    s.filter (fun x => decide (thr ≤ x)) = s.take (k + 1) ∧
    s.filter (fun x => decide (x < thr)) = s.drop (k + 1) := by
  have hpw : ∀ (i j : Nat) (hi : i < s.length) (hj : j < s.length), i < j → s[i] ≥ s[j] :=
    List.pairwise_iff_getElem.mp hs
  have hk0 : k < s.length := by omega
  rw [List.getD_eq_getElem _ _ hk0] at hhi
  rw [List.getD_eq_getElem _ _ hk] at hlo
  have htake : ∀ a ∈ s.take (k + 1), thr ≤ a := by
    intro a ha
    obtain ⟨i, hi, rfl⟩ := List.mem_take_iff_getElem.mp ha
    have hik : i < k + 1 := lt_of_lt_of_le hi (min_le_left _ _)
    rcases Nat.lt_succ_iff_lt_or_eq.mp hik with h1 | h1
    · exact le_trans hhi (hpw i k (by omega) hk0 h1)
    · subst h1; exact hhi
  have hdrop : ∀ a ∈ s.drop (k + 1), a < thr := by
    intro a ha
    obtain ⟨i, hi, rfl⟩ := List.mem_drop_iff_getElem.mp ha
    rcases Nat.eq_zero_or_pos i with h0 | hpos
    · subst h0; simpa using hlo
    · exact lt_of_le_of_lt (hpw (k + 1) (k + 1 + i) hk (by omega) (by omega)) hlo
  constructor
  · conv_lhs => rw [← List.take_append_drop (k + 1) s]
    rw [List.filter_append, List.filter_eq_self.mpr (by simpa using htake),
      List.filter_eq_nil_iff.mpr (by
        intro a ha; simpa using hdrop a ha)]
    simp
  · conv_lhs => rw [← List.take_append_drop (k + 1) s]
    rw [List.filter_append, List.filter_eq_nil_iff.mpr (by
        intro a ha; simpa using htake a ha),
      List.filter_eq_self.mpr (by simpa using hdrop)]
    simp

theorem getD_map_fin (qs : List ℚ) (i : Nat) :
    (qs.map F32.fin).getD i (F32.fin 0) = F32.fin (qs.getD i 0) := by
  rw [List.getD_eq_getElem?_getD, List.getD_eq_getElem?_getD, List.getElem?_map]
  cases qs[i]? <;> rfl

theorem filter_not_lt_map_fin (qs : List ℚ) (τ : ℚ) :
    (qs.map F32.fin).filter (fun x => !F32.lt x (F32.fin τ)) =
      (qs.filter (fun q => decide (τ ≤ q))).map F32.fin := by
  rw [List.filter_map]
  congr 1
  apply List.filter_congr
  intro q _
  by_cases h : τ ≤ q
  · simp [F32.lt, h, not_lt.mpr h]
  · simp [F32.lt, h, not_le.mp h]

theorem filter_lt_map_fin (qs : List ℚ) (τ : ℚ) :
    (qs.map F32.fin).filter (fun x => F32.lt x (F32.fin τ)) =
      (qs.filter (fun q => decide (q < τ))).map F32.fin := by
  rw [List.filter_map]
  congr 1

/-- A list of finite `float32` values is the image of a list of representable
rationals. -/
theorem exists_map_fin_representable (l : List F32) (h : ∀ x ∈ l, FiniteFloat x) :
    ∃ qs : List ℚ, l = qs.map F32.fin ∧ ∀ q ∈ qs, Representable q := by
  induction l with
  | nil => exact ⟨[], rfl, by simp⟩
  | cons x rest ih =>
      obtain ⟨qs, hqs, hr⟩ := ih (fun y hy => h y (List.mem_cons_of_mem _ hy))
      have hx := h x (List.mem_cons_self _ _)
      cases x with
      | fin q =>
          refine ⟨q :: qs, by simp [hqs], ?_⟩
          intro p hp
          simp only [List.mem_cons] at hp
          rcases hp with rfl | hp
          · exact hx
          · exact hr p hp
      | nan => exact absurd hx (by simp [FiniteFloat])
      | ninf => exact absurd hx (by simp [FiniteFloat])
      | pinf => exact absurd hx (by simp [FiniteFloat])

theorem isFinite_of_finiteFloat {x : F32} (h : FiniteFloat x) : F32.isFinite x = true := by
  cases x <;> simp [FiniteFloat, F32.isFinite] at h ⊢

/-- The `float32` gap of two finite values is above 0 only if the first is the
larger. -/
theorem lt_of_gap_pos (a b : ℚ) (h : F32.lt (F32.fin 0) (F32.sub (F32.fin a) (F32.fin b)) = true) :
    b < a := by
  by_contra hcon
  have hm := round_mono (show a - b ≤ 0 by linarith)
  have h0 : F32.round 0 = F32.fin 0 := by decide!
  rw [h0] at hm
  simp only [F32.sub] at h
  rw [f32_not_lt_of_le hm] at h
  cases h

/-- C8 as stated fails at the `float32` values `1/2 + 2^-24` and `1/2`: the gap
is positive and `k = 0`, but the `float32` sum rounds to 1, the threshold is `1/2`
and both names are kept, none dropped. -/
theorem mcut_filter_exactly_top_counterexample :
    Representable (1 / 2 + 1 / 2 ^ 24) ∧ Representable (1 / 2) ∧
    IsFirstMaxGap (sortDesc [F32.fin (1 / 2 + 1 / 2 ^ 24), F32.fin (1 / 2)]) 0 ∧
    F32.lt (F32.fin 0)
      (gapAt (sortDesc [F32.fin (1 / 2 + 1 / 2 ^ 24), F32.fin (1 / 2)]) 0) = true ∧
    mcutThreshold [F32.fin (1 / 2 + 1 / 2 ^ 24), F32.fin (1 / 2)] = some (F32.fin (1 / 2)) ∧
    filterTags [F32.fin (1 / 2 + 1 / 2 ^ 24), F32.fin (1 / 2)] ["a", "b"] (F32.fin (1 / 2)) =
      some ["a", "b"] ∧
    ¬ ∃ t kept, mcutThreshold [F32.fin (1 / 2 + 1 / 2 ^ 24), F32.fin (1 / 2)] = some t ∧
      filterTags [F32.fin (1 / 2 + 1 / 2 ^ 24), F32.fin (1 / 2)] ["a", "b"] t = some kept ∧
      kept.length = 0 + 1 := by
  refine ⟨by decide!, by decide!, by decide!, by decide!, by decide!, by decide!, ?_⟩
  rintro ⟨t, kept, ht, hkept, hl⟩
  have e1 : mcutThreshold [F32.fin (1 / 2 + 1 / 2 ^ 24), F32.fin (1 / 2)] =
      some (F32.fin (1 / 2)) := by decide!
  have e2 : filterTags [F32.fin (1 / 2 + 1 / 2 ^ 24), F32.fin (1 / 2)] ["a", "b"]
      (F32.fin (1 / 2)) = some ["a", "b"] := by decide!
  rw [e1] at ht
  injection ht with ht
  subst ht
  rw [e2] at hkept
  injection hkept with hkept
  subst hkept
  simp at hl

/-- When the `float32` sum overflows the threshold is `+Inf` and nothing is kept:
the values `2^127 + 2^104` and `2^127`. -/
theorem mcut_filter_overflow_keeps_none :
    Representable (2 ^ 127 + 2 ^ 104) ∧ Representable (2 ^ 127) ∧
    mcutThreshold [F32.fin (2 ^ 127 + 2 ^ 104), F32.fin (2 ^ 127)] = some F32.pinf ∧
    filterTags [F32.fin (2 ^ 127 + 2 ^ 104), F32.fin (2 ^ 127)] ["a", "b"] F32.pinf =
      some [] := by
  refine ⟨by decide!, by decide!, by decide!, by decide!⟩

/-- C8 amended: for at least two `float32` scores whose first maximal `float32`
gap `k` (in descending order) is strictly positive and whose threshold from
`mcutThreshold` is finite (the sum did not overflow), the threshold lies between
`s[k+1]` and `s[k]`, and `filterTags` at it keeps every one of the `k + 1`
highest-scoring entries and only entries scored at least `s[k+1]`, so at least
one entry is kept; unless rounding put the threshold on `s[k+1]` itself, it keeps
exactly the `k + 1` highest-scoring entries and drops the others, at least one. -/
theorem mcut_filter_keeps_top (scores : List F32) (names : List String)
    (hlen : scores.length = names.length) (h2 : 2 ≤ scores.length)
    (hrep : ∀ x ∈ scores, FiniteFloat x) (k : Nat)
    (hk : IsFirstMaxGap (sortDesc scores) k)
    (hpos : F32.lt (F32.fin 0) (gapAt (sortDesc scores) k) = true)
    (t : F32) (ht : mcutThreshold scores = some t) (hfin : F32.isFinite t = true) :
    F32.le ((sortDesc scores).getD (k + 1) (F32.fin 0)) t = true ∧
    F32.le t ((sortDesc scores).getD k (F32.fin 0)) = true ∧
    filterTags scores names t = some (keptNames scores names t) ∧
    ((sortDesc scores).take (k + 1)).Subperm (scores.filter (fun x => !F32.lt x t)) ∧
    (∀ x ∈ scores.filter (fun x => !F32.lt x t),
      F32.le ((sortDesc scores).getD (k + 1) (F32.fin 0)) x = true) ∧
    1 ≤ (keptNames scores names t).length ∧
    (t ≠ (sortDesc scores).getD (k + 1) (F32.fin 0) →
      (scores.filter (fun x => !F32.lt x t)).Perm ((sortDesc scores).take (k + 1)) ∧
      (scores.filter (fun x => F32.lt x t)).Perm ((sortDesc scores).drop (k + 1)) ∧
      (keptNames scores names t).length = k + 1 ∧
      (keptNames scores names t).length < names.length) := by
  obtain ⟨qs, hqs, hqr⟩ := exists_map_fin_representable scores hrep
  have hfinite : ∀ x ∈ scores, F32.isFinite x = true :=
    fun x hx => isFinite_of_finiteFloat (hrep x hx)
  obtain ⟨k0, hk0, hcore⟩ := mcutCore_spec scores hfinite h2
  have hkk : k = k0 := isFirstMaxGap_unique hk hk0
  subst hkk
  have hsq : sortDesc scores = (sortDescQ qs).map F32.fin := by rw [hqs, sortDesc_map_fin]
  have hperm := sortDescQ_perm qs
  have hsorted := sortDescQ_sorted qs
  have hql : (sortDescQ qs).length = scores.length := by
    rw [hperm.length_eq, hqs, List.length_map]
  have hsl : (sortDesc scores).length = scores.length := sortDesc_length scores
  have hk1 : k + 1 < (sortDescQ qs).length := by
    have := hk.1
    omega
  set a := (sortDescQ qs).getD k 0 with ha
  set b := (sortDescQ qs).getD (k + 1) 0 with hb
  have hsa : (sortDesc scores).getD k (F32.fin 0) = F32.fin a := by
    rw [hsq, getD_map_fin]
  have hsb : (sortDesc scores).getD (k + 1) (F32.fin 0) = F32.fin b := by
    rw [hsq, getD_map_fin]
  have hamem : a ∈ sortDescQ qs := by
    rw [ha, List.getD_eq_getElem _ _ (by omega)]
    exact List.getElem_mem _
  have hbmem : b ∈ sortDescQ qs := by
    rw [hb, List.getD_eq_getElem _ _ hk1]
    exact List.getElem_mem _
  have har : Representable a := hqr a (hperm.mem_iff.mp hamem)
  have hbr : Representable b := hqr b (hperm.mem_iff.mp hbmem)
  have hba : b < a := by
    unfold gapAt at hpos
    rw [hsa, hsb] at hpos
    exact lt_of_gap_pos a b hpos
  rw [mcutThreshold_eq_core, hcore, hsa, hsb] at ht
  injection ht with ht
  cases t with
  | nan => simp [F32.isFinite] at hfin
  | ninf => simp [F32.isFinite] at hfin
  | pinf => simp [F32.isFinite] at hfin
  | fin τ =>
      obtain ⟨hbt, hta⟩ := midpoint_between a b τ har hbr (le_of_lt hba) ht
      have hkeepQ : scores.filter (fun x => !F32.lt x (F32.fin τ)) =
          (qs.filter (fun q => decide (τ ≤ q))).map F32.fin := by
        rw [hqs, filter_not_lt_map_fin]
      have hdropQ : scores.filter (fun x => F32.lt x (F32.fin τ)) =
          (qs.filter (fun q => decide (q < τ))).map F32.fin := by
        rw [hqs, filter_lt_map_fin]
      have hpw : ∀ (i j : Nat) (hi : i < (sortDescQ qs).length)
          (hj : j < (sortDescQ qs).length), i < j → (sortDescQ qs)[i] ≥ (sortDescQ qs)[j] :=
        List.pairwise_iff_getElem.mp hsorted
      have hak : a = (sortDescQ qs)[k] := by rw [ha, List.getD_eq_getElem _ _ (by omega)]
      have htop : ∀ q ∈ (sortDescQ qs).take (k + 1), τ ≤ q := by
        intro q hq
        obtain ⟨i, hi, rfl⟩ := List.mem_take_iff_getElem.mp hq
        have hik : i < k + 1 := lt_of_lt_of_le hi (min_le_left _ _)
        rcases Nat.lt_succ_iff_lt_or_eq.mp hik with h1 | h1
        · have := hpw i k (by omega) (by omega) h1
          rw [← hak] at this
          exact le_trans hta this
        · subst h1
          rw [← hak]
          exact hta
      have hsub : ((sortDescQ qs).take (k + 1)).Subperm (qs.filter (fun q => decide (τ ≤ q))) := by
        have e : (sortDescQ qs).take (k + 1) =
            ((sortDescQ qs).take (k + 1)).filter (fun q => decide (τ ≤ q)) :=
          (List.filter_eq_self.mpr (by simpa using htop)).symm
        have s1 : (((sortDescQ qs).take (k + 1)).filter (fun q => decide (τ ≤ q))).Sublist
            ((sortDescQ qs).filter (fun q => decide (τ ≤ q))) :=
          (List.take_sublist _ _).filter _
        rw [e]
        exact s1.subperm.trans (hperm.filter _).subperm
      have hcountge : k + 1 ≤ (keptNames scores names (F32.fin τ)).length := by
        rw [keptNames_length scores names _ hlen, hkeepQ, List.length_map]
        have := hsub.length_le
        rw [List.length_take] at this
        omega
      refine ⟨by rw [hsb]; simpa [F32.le] using hbt, by rw [hsa]; simpa [F32.le] using hta,
        filterTags_eq scores names _ (le_of_eq hlen.symm), ?_, ?_, by omega, ?_⟩
      · rw [hkeepQ, hsq, ← List.map_take]
        obtain ⟨l, hl1, hl2⟩ := hsub
        exact ⟨l.map F32.fin, hl1.map _, hl2.map _⟩
      · intro x hx
        rw [hkeepQ] at hx
        obtain ⟨q, hq, rfl⟩ := List.mem_map.mp hx
        have hq2 : τ ≤ q := by simpa using (List.mem_filter.mp hq).2
        rw [hsb]
        simpa [F32.le] using le_trans hbt hq2
      · intro hne
        have hbt2 : b < τ := by
          rcases lt_or_eq_of_le hbt with h | h
          · exact h
          · exact absurd (by rw [hsb, h]) hne
        have hcut := filter_of_sorted_cut (sortDescQ qs) hsorted k hk1 τ
          (by rw [← ha]; exact hta) (by rw [← hb]; exact hbt2)
        have hkeep : (scores.filter (fun x => !F32.lt x (F32.fin τ))).Perm
            ((sortDesc scores).take (k + 1)) := by
          rw [hkeepQ, hsq, ← List.map_take, ← hcut.1]
          exact ((hperm.filter _).symm).map F32.fin
        have hdropped : (scores.filter (fun x => F32.lt x (F32.fin τ))).Perm
            ((sortDesc scores).drop (k + 1)) := by
          rw [hdropQ, hsq, ← List.map_drop, ← hcut.2]
          exact ((hperm.filter _).symm).map F32.fin
        have hcount : (keptNames scores names (F32.fin τ)).length = k + 1 := by
          rw [keptNames_length scores names _ hlen, hkeep.length_eq, List.length_take]
          omega
        exact ⟨hkeep, hdropped, hcount, by omega⟩

/-- C8 amended at the `float32` values nearest to 0.9, 0.85, 0.3, 0.28, 0.1 with
names `a` to `e`: the threshold is `2411725 / 4194304` and exactly `a` and `b` are
kept. -/
theorem mcut_filter_keeps_top_witness :
    filterTags cliffScores ["a", "b", "c", "d", "e"] (F32.fin (2411725 / 4194304)) =
      some ["a", "b"] ∧
    (F32.fin (2411725 / 4194304) ≠ (sortDesc cliffScores).getD (1 + 1) (F32.fin 0) →
      (cliffScores.filter (fun x => !F32.lt x (F32.fin (2411725 / 4194304)))).Perm
        ((sortDesc cliffScores).take (1 + 1)) ∧
      (cliffScores.filter (fun x => F32.lt x (F32.fin (2411725 / 4194304)))).Perm
        ((sortDesc cliffScores).drop (1 + 1)) ∧
      (keptNames cliffScores ["a", "b", "c", "d", "e"] (F32.fin (2411725 / 4194304))).length =
        1 + 1 ∧
      (keptNames cliffScores ["a", "b", "c", "d", "e"] (F32.fin (2411725 / 4194304))).length <
        ["a", "b", "c", "d", "e"].length) :=
  ⟨by decide!,
    (mcut_filter_keeps_top cliffScores ["a", "b", "c", "d", "e"] (by decide!) (by decide!)
      (by decide!) 1 (by decide!) (by decide!) (F32.fin (2411725 / 4194304)) (by decide!)
      (by decide!)).2.2.2.2.2.2⟩

/-! ## `postprocess`: the partition loop -/

theorem partitionStep_eq_row (tags : List (List String)) (st : Partition) (i : Nat)
    (score : F32) :
    partitionStep tags st i score =
      match tags[i]? with
      | none => none
      | some tag => partitionStep [tag] st 0 score := by
  unfold partitionStep
  cases tags[i]? <;> simp

theorem partitionLoop_eq_zip (tags : List (List String)) :
    ∀ (scores : List F32) (i : Nat) (st : Partition),
      partitionLoop tags scores i st = partitionZip (tags.drop i) scores st := by
  intro scores
  induction scores with
  | nil => intro i st; simp [partitionLoop, partitionZip]
  | cons score rest ih =>
      intro i st
      unfold partitionLoop
      rw [partitionStep_eq_row]
      by_cases hi : i < tags.length
      · rw [List.getElem?_eq_getElem hi, List.drop_eq_getElem_cons hi]
        simp only [partitionZip]
        cases partitionStep [tags[i]] st 0 score with
        | none => rfl
        | some st1 => exact ih (i + 1) st1
      · have hnone : tags[i]? = none := List.getElem?_eq_none (by omega)
        have hnil : tags.drop i = [] := List.drop_eq_nil_iff.mpr (by omega)
        rw [hnone, hnil]
        simp [partitionZip]

theorem partitionStep_unrecognized (tag : List String) (st : Partition) (score : F32)
    (h : Unrecognized tag = true) : partitionStep [tag] st 0 score = some st := by
  unfold Unrecognized at h
  unfold partitionStep
  simp only [List.getElem?_cons_zero]
  cases h2 : tag[2]? with
  | none => rw [h2] at h; simp at h
  | some category =>
      rw [h2] at h
      simp only [Bool.and_eq_true, bne_iff_ne, ne_eq] at h
      have hlen : 2 < tag.length := by
        by_contra hcon
        rw [List.getElem?_eq_none (by omega)] at h2
        cases h2
      rw [List.getElem?_eq_getElem (show 1 < tag.length by omega)]
      simp [h.1.1, h.1.2, h.2]

theorem partitionZip_dropUnrecognized :
    ∀ (scores : List F32) (tags : List (List String)) (st : Partition),
      partitionZip (dropUnrecognized scores tags).2 (dropUnrecognized scores tags).1 st =
        partitionZip tags scores st
  | [], tags, st => by simp [dropUnrecognized, partitionZip]
  | score :: ss, [], st => by simp [dropUnrecognized, partitionZip]
  | score :: ss, tag :: ts, st => by
      have ih := partitionZip_dropUnrecognized ss ts
      unfold dropUnrecognized
      by_cases hu : Unrecognized tag = true
      · rw [if_pos hu, ih]
        simp [partitionZip, partitionStep_unrecognized tag st score hu]
      · rw [if_neg hu]
        simp only [partitionZip]
        cases partitionStep [tag] st 0 score with
        | none => rfl
        | some st1 => exact ih st1

theorem zip_dropUnrecognized :
    ∀ (scores : List F32) (tags : List (List String)),
      (dropUnrecognized scores tags).1.zip (dropUnrecognized scores tags).2 =
        (scores.zip tags).filter (fun p => !Unrecognized p.2)
  | [], tags => by simp [dropUnrecognized]
  | score :: ss, [] => by simp [dropUnrecognized]
  | score :: ss, tag :: ts => by
      have ih := zip_dropUnrecognized ss ts
      unfold dropUnrecognized
      by_cases hu : Unrecognized tag = true
      · rw [if_pos hu, ih]
        simp [hu]
      · rw [if_neg hu]
        simp [hu, ih]

theorem recognized_of_mem_dropUnrecognized :
    ∀ (scores : List F32) (tags : List (List String)),
      ∀ t ∈ (dropUnrecognized scores tags).2, Unrecognized t = false
  | [], tags => by
      intro t ht
      simp [dropUnrecognized] at ht
      exact ht.2
  | score :: ss, [] => by simp [dropUnrecognized]
  | score :: ss, tag :: ts => by
      have ih := recognized_of_mem_dropUnrecognized ss ts
      unfold dropUnrecognized
      by_cases hu : Unrecognized tag = true
      · rw [if_pos hu]; exact ih
      · rw [if_neg hu]
        intro t ht
        simp only [List.mem_cons] at ht
        rcases ht with rfl | ht
        · simpa using hu
        · exact ih t ht

/-- On the demo taxonomy the deletion removes the `meta` row (category `"5"`) and
its score, and nothing else. -/
theorem dropUnrecognized_demo :
    dropUnrecognized zeroRatingScores demoTags =
      ([F32.fin 0, F32.fin 0, F32.fin 0, F32.fin (1 / 2), F32.fin (1 / 4), F32.fin (7 / 8)],
       [["0", "safe", "9", "1"], ["1", "questionable", "9", "1"], ["2", "explicit", "9", "1"],
        ["3", "1girl", "0", "5"], ["4", "solo", "0", "5"], ["6", "hatsune_miku", "4", "5"]]) := by
  decide!

/-- C6: rows with a category code other than `"0"`, `"4"`, `"9"` contribute
nothing: `postprocess` gives the same outcome (the same `Tags`, or the same
panic) on the taxonomy and score vector from which every such scored row and its
score are deleted.  The deletion keeps the remaining scores paired with their own
rows, and leaves no unrecognized row. -/
theorem postprocess_ignores_unrecognized (tags : List (List String)) (scores : List F32)
    (generalThreshold characterThreshold : F32) (generalMCut characterMCut : Bool) :
    postprocess tags scores generalThreshold characterThreshold generalMCut characterMCut =
      postprocess (dropUnrecognized scores tags).2 (dropUnrecognized scores tags).1
        generalThreshold characterThreshold generalMCut characterMCut ∧
    (dropUnrecognized scores tags).1.zip (dropUnrecognized scores tags).2 =
      (scores.zip tags).filter (fun p => !Unrecognized p.2) ∧
    ∀ t ∈ (dropUnrecognized scores tags).2, Unrecognized t = false := by
  refine ⟨?_, zip_dropUnrecognized scores tags, recognized_of_mem_dropUnrecognized scores tags⟩
  unfold postprocess
  rw [partitionLoop_eq_zip, partitionLoop_eq_zip, List.drop_zero, List.drop_zero,
    partitionZip_dropUnrecognized]

/-! ## `postprocess`: the rating -/

theorem partitionStep_cases (tags : List (List String)) (st st1 : Partition) (i : Nat)
    (score : F32) (h : partitionStep tags st i score = some st1) :
    (categoryAt tags i).isSome ∧
    (st1.generalScores.length = st1.generalNames.length ↔
      st.generalScores.length = st.generalNames.length) ∧
    (st1.characterScores.length = st1.characterNames.length ↔
      st.characterScores.length = st.characterNames.length) ∧
    ((categoryAt tags i = some "9" ∧ F32.lt st.ratingScore score = true) →
      st1.ratingScore = score ∧ nameAt tags i = some st1.ratingName) ∧
    (¬ (categoryAt tags i = some "9" ∧ F32.lt st.ratingScore score = true) →
      st1.ratingScore = st.ratingScore ∧ st1.ratingName = st.ratingName) := by
  unfold partitionStep at h
  unfold categoryAt nameAt
  cases ht : tags[i]? with
  | none => rw [ht] at h; simp at h
  | some tag =>
      rw [ht] at h
      simp only at h ⊢
      cases h2 : tag[2]? with
      | none => rw [h2] at h; simp at h
      | some category =>
          cases h1 : tag[1]? with
          | none => rw [h2, h1] at h; simp at h
          | some name =>
              rw [h2, h1] at h
              simp only at h
              split_ifs at h with c0 c4 c9
              · subst c0
                injection h with h; subst h
                simp
              · subst c4
                injection h with h; subst h
                simp
              · injection h with h; subst h
                simp [c9.1, c9.2]
              · injection h with h; subst h
                simp only [Option.isSome_some, true_and, Option.some.injEq, iff_self]
                exact ⟨fun hc => absurd hc c9, fun _ => trivial⟩

theorem partitionStep_isSome (tags : List (List String)) (st : Partition) (i : Nat)
    (score : F32) (h : (categoryAt tags i).isSome) :
    (partitionStep tags st i score).isSome := by
  unfold categoryAt at h
  unfold partitionStep
  cases ht : tags[i]? with
  | none => rw [ht] at h; simp at h
  | some tag =>
      rw [ht] at h
      simp only at h ⊢
      cases h2 : tag[2]? with
      | none => rw [h2] at h; simp at h
      | some category =>
          have hlen : 2 < tag.length := by
            by_contra hcon
            rw [List.getElem?_eq_none (by omega)] at h2
            cases h2
          rw [List.getElem?_eq_getElem (show 1 < tag.length by omega)]
          simp only
          split_ifs <;> simp

theorem partitionLoop_inv (tags : List (List String)) (scores : List F32) :
    ∀ (rest : List F32) (i : Nat) (st st1 : Partition),
      rest = scores.drop i → i ≤ scores.length → RatingInv tags scores i st → Balanced st →
      partitionLoop tags rest i st = some st1 →
      RatingInv tags scores scores.length st1 ∧ Balanced st1 := by
  intro rest
  induction rest with
  | nil =>
      intro i st st1 hrest hi hinv hbal hrun
      have hlen : scores.length ≤ i := List.drop_eq_nil_iff.mp hrest.symm
      have hi2 : i = scores.length := le_antisymm hi hlen
      subst hi2
      simp only [partitionLoop, Option.some.injEq] at hrun
      subst hrun
      exact ⟨hinv, hbal⟩
  | cons score rest ih =>
      intro i st st1 hrest hi hinv hbal hrun
      obtain ⟨hil, hsc, hrest1⟩ := drop_eq_cons_iff_aux scores i score rest hrest
      have hsi : scores.getD i (F32.fin 0) = score := by
        rw [List.getD_eq_getElem?_getD, hsc]; rfl
      unfold partitionLoop at hrun
      cases hstep : partitionStep tags st i score with
      | none => rw [hstep] at hrun; simp at hrun
      | some st2 =>
          rw [hstep] at hrun
          simp only at hrun
          obtain ⟨_, hg, hc, hupd, hkeep⟩ := partitionStep_cases tags st st2 i score hstep
          obtain ⟨hnn, hbound, hfirst, hempty⟩ := hinv
          refine ih (i + 1) st2 st1 hrest1 (by omega) ?_ ⟨hg.mpr hbal.1, hc.mpr hbal.2⟩ hrun
          by_cases hcond : categoryAt tags i = some "9" ∧ F32.lt st.ratingScore score = true
          · obtain ⟨hs2, hn2⟩ := hupd hcond
            have hpos : F32.lt (F32.fin 0) score = true := f32_lt_of_le_of_lt hnn hcond.2
            have hsn : score ≠ F32.nan := (f32_ne_nan_of_lt hpos).2
            refine ⟨?_, ?_, ?_, ?_⟩
            · rw [hs2]
              exact f32_le_of_not_lt hsn (by simp)
                (by
                  cases hc0 : F32.lt score (F32.fin 0) with
                  | false => rfl
                  | true =>
                      have := f32_lt_trans hpos hc0
                      rw [f32_lt_irrefl] at this
                      cases this)
            · intro j hj hcat
              rw [hs2]
              rcases Nat.lt_succ_iff_lt_or_eq.mp hj with h1 | h1
              · cases hc0 : F32.lt score (scores.getD j (F32.fin 0)) with
                | false => rfl
                | true =>
                    have := f32_lt_trans hcond.2 hc0
                    rw [hbound j h1 hcat] at this
                    cases this
              · rw [h1, hsi]; exact f32_lt_irrefl score
            · intro _
              refine ⟨i, by omega, hcond.1, hn2, by rw [hs2, hsi], ?_⟩
              intro j hj hcat
              rw [hs2]
              cases hc0 : F32.le score (scores.getD j (F32.fin 0)) with
              | false => rfl
              | true =>
                  have := f32_lt_of_lt_of_le hcond.2 hc0
                  rw [hbound j hj hcat] at this
                  cases this
            · intro h0
              rw [hs2] at h0
              rw [h0, f32_lt_irrefl] at hpos
              cases hpos
          · obtain ⟨hs2, hn2⟩ := hkeep hcond
            refine ⟨by rw [hs2]; exact hnn, ?_, ?_, ?_⟩
            · intro j hj hcat
              rw [hs2]
              rcases Nat.lt_succ_iff_lt_or_eq.mp hj with h1 | h1
              · exact hbound j h1 hcat
              · rw [h1, hsi]
                rw [h1] at hcat
                cases hc0 : F32.lt st.ratingScore score with
                | false => rfl
                | true => exact absurd ⟨hcat, hc0⟩ hcond
            · intro hp
              rw [hs2] at hp
              obtain ⟨k, hk, hkc, hkn, hks, hkf⟩ := hfirst hp
              exact ⟨k, by omega, hkc, by rw [hn2]; exact hkn, by rw [hs2]; exact hks,
                by rw [hs2]; exact hkf⟩
            · intro h0
              rw [hs2] at h0
              rw [hn2]
              exact hempty h0

theorem partitionLoop_isSome (tags : List (List String)) (scores : List F32)
    (hcov : ∀ i, i < scores.length → (categoryAt tags i).isSome) :
    ∀ (rest : List F32) (i : Nat) (st : Partition),
      rest = scores.drop i → (partitionLoop tags rest i st).isSome := by
  intro rest
  induction rest with
  | nil => intro i st _; simp [partitionLoop]
  | cons score rest ih =>
      intro i st hrest
      obtain ⟨hil, _, hrest1⟩ := drop_eq_cons_iff_aux scores i score rest hrest
      unfold partitionLoop
      cases hstep : partitionStep tags st i score with
      | none =>
          have := partitionStep_isSome tags st i score (hcov i hil)
          rw [hstep] at this
          simp at this
      | some st2 => exact ih (i + 1) st2 hrest1

theorem ratingInv_init (tags : List (List String)) (scores : List F32) :
    RatingInv tags scores 0 Partition.init ∧ Balanced Partition.init := by
  refine ⟨⟨by simp [Partition.init, F32.le], ?_, ?_, ?_⟩, rfl, rfl⟩
  · intro j hj; omega
  · intro h
    simp [Partition.init, F32.lt] at h
  · intro _; rfl

/-- When `postprocess` returns, the partition loop returned and supplied the
rating. -/
theorem postprocess_some_partition (tags : List (List String)) (scores : List F32)
    (gT cT : F32) (gM cM : Bool) (t : Tags)
    (h : postprocess tags scores gT cT gM cM = some t) :
    ∃ st, partitionLoop tags scores 0 Partition.init = some st ∧ t.Rating = st.ratingName := by
  unfold postprocess at h
  cases hp : partitionLoop tags scores 0 Partition.init with
  | none => rw [hp] at h; simp at h
  | some st =>
      rw [hp] at h
      refine ⟨st, rfl, ?_⟩
      simp only at h
      split at h
      · simp at h
      · split at h
        · simp at h
        · split at h
          · injection h with h; subst h; rfl
          · simp at h

/-- With fixed thresholds `postprocess` returns whenever the taxonomy has a row
with a category column for every score. -/
theorem postprocess_isSome_of_covers (tags : List (List String)) (scores : List F32)
    (gT cT : F32) (hcov : ∀ i, i < scores.length → (categoryAt tags i).isSome) :
    (postprocess tags scores gT cT false false).isSome := by
  have hsome := partitionLoop_isSome tags scores hcov scores 0 Partition.init (by simp)
  obtain ⟨st, hst⟩ := Option.isSome_iff_exists.mp hsome
  have hinv := partitionLoop_inv tags scores scores 0 Partition.init st (by simp) (by omega)
    (ratingInv_init tags scores).1 (ratingInv_init tags scores).2 hst
  unfold postprocess
  rw [hst]
  simp only [Bool.false_eq_true, if_false]
  rw [filterTags_eq _ _ _ (le_of_eq hinv.2.1.symm), filterTags_eq _ _ _ (le_of_eq hinv.2.2.symm)]
  simp

/-- C4: when some rating row (category `"9"`) has a score above 0, the `Rating`
that `postprocess` returns is the name of a rating row `k` that no rating row
exceeds (every rating score that is a number is at most its score) and that no
earlier rating row reaches (every earlier rating score that is a number is
strictly below); with fixed thresholds and a taxonomy covering the scores,
`postprocess` does return. -/
theorem postprocess_rating_first_max (tags : List (List String)) (scores : List F32)
    (gT cT : F32) (gM cM : Bool)
    (h : ∃ i, i < scores.length ∧ categoryAt tags i = some "9" ∧
      F32.lt (F32.fin 0) (scores.getD i (F32.fin 0)) = true) :
    ((∀ i, i < scores.length → (categoryAt tags i).isSome) → gM = false → cM = false →
      (postprocess tags scores gT cT gM cM).isSome) ∧
    ∀ t, postprocess tags scores gT cT gM cM = some t →
      ∃ k, k < scores.length ∧ categoryAt tags k = some "9" ∧ nameAt tags k = some t.Rating ∧
        scores.getD k (F32.fin 0) ≠ F32.nan ∧
        (∀ j, j < scores.length → categoryAt tags j = some "9" →
          F32.lt (scores.getD k (F32.fin 0)) (scores.getD j (F32.fin 0)) = false ∧
          (scores.getD j (F32.fin 0) ≠ F32.nan →
            F32.le (scores.getD j (F32.fin 0)) (scores.getD k (F32.fin 0)) = true)) ∧
        (∀ j, j < k → categoryAt tags j = some "9" →
          F32.le (scores.getD k (F32.fin 0)) (scores.getD j (F32.fin 0)) = false ∧
          (scores.getD j (F32.fin 0) ≠ F32.nan →
            F32.lt (scores.getD j (F32.fin 0)) (scores.getD k (F32.fin 0)) = true)) := by
  constructor
  · intro hcov hg hc
    subst hg; subst hc
    exact postprocess_isSome_of_covers tags scores gT cT hcov
  · intro t ht
    obtain ⟨st, hst, hr⟩ := postprocess_some_partition tags scores gT cT gM cM t ht
    obtain ⟨⟨hnn, hbound, hfirst, _⟩, _⟩ :=
      partitionLoop_inv tags scores scores 0 Partition.init st (by simp) (by omega)
        (ratingInv_init tags scores).1 (ratingInv_init tags scores).2 hst
    obtain ⟨i, hi, hcat, hpos⟩ := h
    have hrn : st.ratingScore ≠ F32.nan := (f32_ne_nan_of_le hnn).2
    have hp : F32.lt (F32.fin 0) st.ratingScore = true :=
      f32_lt_of_lt_of_le hpos
        (f32_le_of_not_lt hrn (f32_ne_nan_of_lt hpos).2 (hbound i hi hcat))
    obtain ⟨k, hk, hkc, hkn, hks, hkf⟩ := hfirst hp
    refine ⟨k, hk, hkc, by rw [hr]; exact hkn, by rw [hks]; exact hrn, ?_, ?_⟩
    · intro j hj hjc
      rw [hks]
      exact ⟨hbound j hj hjc, fun hjn => f32_le_of_not_lt hrn hjn (hbound j hj hjc)⟩
    · intro j hj hjc
      rw [hks]
      refine ⟨hkf j hj hjc, fun hjn => ?_⟩
      have := hkf j hj hjc
      rw [f32_le_iff_not_lt hrn hjn] at this
      simpa using this

/-- C4 on the demo taxonomy with the `float32` rating scores for safe 0.6,
questionable 0.6, explicit 0.1: the rating is `safe`, row 0. -/
theorem postprocess_rating_first_max_witness :
    postprocess demoTags demoScores (F32.fin (3 / 8)) (F32.fin (7 / 8)) false false =
      some ⟨["1girl"], ["hatsune_miku"], "safe"⟩ ∧
    ∃ k, k < demoScores.length ∧
      categoryAt demoTags k = some "9" ∧ nameAt demoTags k = some "safe" ∧
      demoScores.getD k (F32.fin 0) ≠ F32.nan ∧
      (∀ j, j < demoScores.length → categoryAt demoTags j = some "9" →
        F32.lt (demoScores.getD k (F32.fin 0)) (demoScores.getD j (F32.fin 0)) = false ∧
        (demoScores.getD j (F32.fin 0) ≠ F32.nan →
          F32.le (demoScores.getD j (F32.fin 0)) (demoScores.getD k (F32.fin 0)) = true)) ∧
      (∀ j, j < k → categoryAt demoTags j = some "9" →
        F32.le (demoScores.getD k (F32.fin 0)) (demoScores.getD j (F32.fin 0)) = false ∧
        (demoScores.getD j (F32.fin 0) ≠ F32.nan →
          F32.lt (demoScores.getD j (F32.fin 0)) (demoScores.getD k (F32.fin 0)) = true)) :=
  ⟨by decide!,
    (postprocess_rating_first_max demoTags demoScores (F32.fin (3 / 8)) (F32.fin (7 / 8))
      false false ⟨0, by decide, by decide, by decide!⟩).2
      ⟨["1girl"], ["hatsune_miku"], "safe"⟩ (by decide!)⟩

/-! ## The demultiplexing step of `Predict` -/

theorem chunk_zero (output : List F32) (classes : Nat) :
    chunk output classes 0 = output.take classes := by
  simp [chunk]

theorem chunk_drop (output : List F32) (classes j : Nat) :
    chunk (output.drop classes) classes j = chunk output classes (j + 1) := by
  unfold chunk
  rw [List.drop_drop]
  congr 2
  ring

theorem demuxLoop_some (tags : List (List String)) (classes : Nat) (gT cT : F32)
    (gM cM : Bool) :
    ∀ (n idx : Nat) (output : List F32) (resultMap : Nat → Option Tags),
      output.length = n * classes →
      (∀ j, j < n → (postprocess tags (chunk output classes j) gT cT gM cM).isSome) →
      demuxLoop tags classes gT cT gM cM n idx output resultMap =
        some (fun k => if idx ≤ k ∧ k < idx + n
          then postprocess tags (chunk output classes (k - idx)) gT cT gM cM
          else resultMap k) := by
  intro n
  induction n with
  | zero =>
      intro idx output resultMap _ _
      unfold demuxLoop
      congr 1
      funext k
      rw [if_neg (by omega)]
  | succ n ih =>
      intro idx output resultMap hlen hall
      have hcl : classes ≤ output.length := by
        rw [hlen]; exact Nat.le_mul_of_pos_left classes (Nat.succ_pos n)
      unfold demuxLoop
      rw [if_pos hcl]
      have h0 := hall 0 (Nat.succ_pos n)
      rw [chunk_zero] at h0
      obtain ⟨t, ht⟩ := Option.isSome_iff_exists.mp h0
      rw [ht]
      simp only
      have hlen1 : (output.drop classes).length = n * classes := by
        rw [List.length_drop, hlen, Nat.succ_mul]; omega
      rw [ih (idx + 1) (output.drop classes) _ hlen1 (by
        intro j hj
        rw [chunk_drop]
        exact hall (j + 1) (by omega))]
      congr 1
      funext k
      by_cases hk : k = idx
      · subst hk
        rw [if_neg (by omega), if_pos rfl, if_pos (by omega), Nat.sub_self, chunk_zero, ht]
      · by_cases hin : idx + 1 ≤ k ∧ k < idx + 1 + n
        · rw [if_pos hin, if_pos (by omega), chunk_drop]
          congr 3
          omega
        · rw [if_neg hin, if_neg hk, if_neg (by omega)]

theorem demuxLoop_isSome_imp (tags : List (List String)) (classes : Nat) (gT cT : F32)
    (gM cM : Bool) :
    ∀ (n idx : Nat) (output : List F32) (resultMap : Nat → Option Tags),
      (demuxLoop tags classes gT cT gM cM n idx output resultMap).isSome →
      ∀ j, j < n → (postprocess tags (chunk output classes j) gT cT gM cM).isSome := by
  intro n
  induction n with
  | zero => intro idx output resultMap _ j hj; omega
  | succ n ih =>
      intro idx output resultMap hsome j hj
      unfold demuxLoop at hsome
      split_ifs at hsome with hcl
      · cases ht : postprocess tags (output.take classes) gT cT gM cM with
        | none => rw [ht] at hsome; simp at hsome
        | some t =>
            rw [ht] at hsome
            simp only at hsome
            rcases Nat.eq_zero_or_pos j with h0 | hpos
            · subst h0
              rw [chunk_zero, ht]; rfl
            · have := ih (idx + 1) (output.drop classes) _ hsome (j - 1) (by omega)
              rw [chunk_drop] at this
              rwa [Nat.sub_add_cancel hpos] at this
      · simp at hsome

/-- C7: for an output buffer of length `N * classes`, the demultiplexing step
returns exactly when `postprocess` returns on every chunk, and then it returns a
list of `N` results whose `i`-th entry is `postprocess` of the `i`-th contiguous
chunk with the call's thresholds and flags, in input order. -/
theorem predictDemux_positional (tags : List (List String)) (classes N : Nat)
    (output : List F32) (gT cT : F32) (gM cM : Bool) (hlen : output.length = N * classes) :
    ((∀ i, i < N → (postprocess tags (chunk output classes i) gT cT gM cM).isSome) →
      (predictDemux tags classes N output gT cT gM cM).isSome) ∧
    ∀ rs, predictDemux tags classes N output gT cT gM cM = some rs →
      rs.length = N ∧
      ∀ i, i < N →
        (postprocess tags (chunk output classes i) gT cT gM cM).isSome ∧
        rs[i]? = some (postprocess tags (chunk output classes i) gT cT gM cM) := by
  constructor
  · intro hall
    unfold predictDemux
    rw [demuxLoop_some tags classes gT cT gM cM N 0 output _ hlen hall]
    rfl
  · intro rs hrs
    unfold predictDemux at hrs
    cases hm : demuxLoop tags classes gT cT gM cM N 0 output (fun _ => none) with
    | none => rw [hm] at hrs; simp at hrs
    | some m =>
        have hall := demuxLoop_isSome_imp tags classes gT cT gM cM N 0 output _
          (by rw [hm]; rfl)
        rw [hm] at hrs
        rw [demuxLoop_some tags classes gT cT gM cM N 0 output _ hlen hall] at hm
        simp only [Option.some.injEq] at hrs hm
        subst hrs
        subst hm
        refine ⟨by simp, ?_⟩
        intro i hi
        refine ⟨hall i hi, ?_⟩
        rw [List.getElem?_map, List.getElem?_range hi]
        simp [hi]

/-- C7 on the demo taxonomy with a buffer of two chunks of seven scores. -/
theorem predictDemux_positional_witness :
    predictDemux demoTags 7 2 (demoScores ++ otherScores) (F32.fin (3 / 8)) (F32.fin (7 / 8))
      false false =
      some [some ⟨["1girl"], ["hatsune_miku"], "safe"⟩, some ⟨["solo"], [], "questionable"⟩] ∧
    [some (⟨["1girl"], ["hatsune_miku"], "safe"⟩ : Tags),
      some ⟨["solo"], [], "questionable"⟩].length = 2 ∧
    ∀ i, i < 2 →
      (postprocess demoTags (chunk (demoScores ++ otherScores) 7 i)
        (F32.fin (3 / 8)) (F32.fin (7 / 8)) false false).isSome ∧
      [some (⟨["1girl"], ["hatsune_miku"], "safe"⟩ : Tags),
        some ⟨["solo"], [], "questionable"⟩][i]? =
        some (postprocess demoTags (chunk (demoScores ++ otherScores) 7 i)
          (F32.fin (3 / 8)) (F32.fin (7 / 8)) false false) :=
  ⟨by decide!,
    (predictDemux_positional demoTags 7 2 (demoScores ++ otherScores)
      (F32.fin (3 / 8)) (F32.fin (7 / 8)) false false (by decide)).2 _ (by decide!)⟩

/-! ## Degenerate inputs -/

/-- C2: `mcutThreshold` panics on the empty list and on every one-element list,
and `postprocess` with the character flag set panics on the demo taxonomy, which
has a single character row. -/
theorem mcutThreshold_short_panics :
    mcutThreshold [] = none ∧ (∀ x : F32, mcutThreshold [x] = none) ∧
    postprocess demoTags demoScores (F32.fin (3 / 8)) (F32.fin (7 / 8)) false true = none := by
  refine ⟨by decide, ?_, by decide!⟩
  intro x
  rw [mcutThreshold_eq_core]
  simp [mcutCore, sortDesc, insertionSortLess, insertLess, difsOf]

/-- C3: with every rating score equal to 0 the running maximum, which starts at
0 and is replaced only by a strictly larger score, is never replaced: `Rating` is
the empty string although three rating rows are scored. -/
theorem postprocess_rating_empty_at_zero_scores :
    categoryAt demoTags 0 = some "9" ∧ nameAt demoTags 0 = some "safe" ∧
    postprocess demoTags zeroRatingScores (F32.fin (3 / 8)) (F32.fin (7 / 8)) false false =
      some ⟨["1girl"], ["hatsune_miku"], ""⟩ := by
  refine ⟨by decide, by decide, by decide!⟩

/-! ## `preprocess`: letterbox -/

theorem half_floor_ceil (d : Int) (h : 0 ≤ d) :
    Int.tdiv d 2 = ⌊((d : ℚ) / 2)⌋ ∧ d - Int.tdiv d 2 = ⌈((d : ℚ) / 2)⌉ ∧
    (d % 2 = 1 → d - Int.tdiv d 2 = Int.tdiv d 2 + 1) ∧
    (d % 2 = 0 → d - Int.tdiv d 2 = Int.tdiv d 2) := by
  rw [Int.tdiv_eq_ediv h (by norm_num)]
  have h1 : 2 * (d / 2) ≤ d := by omega
  have h2 : d < 2 * (d / 2) + 2 := by omega
  have h1q : (2 : ℚ) * ((d / 2 : Int) : ℚ) ≤ (d : ℚ) := by exact_mod_cast h1
  have h2q : (d : ℚ) < 2 * ((d / 2 : Int) : ℚ) + 2 := by exact_mod_cast h2
  refine ⟨?_, ?_, ?_, ?_⟩
  · symm
    rw [Int.floor_eq_iff]
    constructor <;> linarith
  · symm
    rw [Int.ceil_eq_iff]
    push_cast
    constructor <;> linarith
  · intro hodd; omega
  · intro heven; omega

theorem rect_ordered (x0 y0 x1 y1 : Int) (hx : x0 ≤ x1) (hy : y0 ≤ y1) :
    Rect x0 y0 x1 y1 = ⟨⟨x0, y0⟩, ⟨x1, y1⟩⟩ := by
  unfold Rect
  rw [if_neg (by omega), if_neg (by omega), if_neg (by omega), if_neg (by omega)]

theorem intersect_of_inside (r s : Rectangle) (h1 : s.Min.X ≤ r.Min.X) (h2 : s.Min.Y ≤ r.Min.Y)
    (h3 : r.Max.X ≤ s.Max.X) (h4 : r.Max.Y ≤ s.Max.Y) (hx : r.Min.X < r.Max.X)
    (hy : r.Min.Y < r.Max.Y) : r.Intersect s = r := by
  obtain ⟨⟨a, b⟩, ⟨c, d⟩⟩ := r
  simp only at h1 h2 h3 h4 hx hy
  have a1 : ¬ a < s.Min.X := by omega
  have a2 : ¬ b < s.Min.Y := by omega
  have a3 : ¬ c > s.Max.X := by omega
  have a4 : ¬ d > s.Max.Y := by omega
  have he : Rectangle.Empty ⟨⟨a, b⟩, ⟨c, d⟩⟩ = false := by
    simp [Rectangle.Empty, hx, hy]
  simp only [Rectangle.Intersect, if_neg a1, if_neg a2, if_neg a3, if_neg a4, he]
  simp

/-- A non-empty rectangle inside the canvas, drawn from a source whose bounds
start at the origin, is written whole, its corner holding the source pixel
`(0, 0)`. -/
theorem clip_inside (m ox oy w h : Int) (hox : 0 ≤ ox) (hoy : 0 ≤ oy) (hxm : ox + w ≤ m)
    (hym : oy + h ≤ m) (hw : 0 < w) (hh : 0 < h) :
    clip (Rect 0 0 m m) (Rect ox oy (ox + w) (oy + h)) (originBounds w h) ⟨0, 0⟩ =
      (⟨⟨ox, oy⟩, ⟨ox + w, oy + h⟩⟩, ⟨0, 0⟩) := by
  rw [rect_ordered 0 0 m m (by omega) (by omega),
    rect_ordered ox oy (ox + w) (oy + h) (by omega) (by omega)]
  unfold clip
  have e1 : (⟨⟨ox, oy⟩, ⟨ox + w, oy + h⟩⟩ : Rectangle).Intersect ⟨⟨0, 0⟩, ⟨m, m⟩⟩ =
      ⟨⟨ox, oy⟩, ⟨ox + w, oy + h⟩⟩ :=
    intersect_of_inside _ _ hox hoy hxm hym (by simp; omega) (by simp; omega)
  have e2 : (⟨⟨ox, oy⟩, ⟨ox + w, oy + h⟩⟩ : Rectangle).Intersect
      ((originBounds w h).Add ⟨ox - 0, oy - 0⟩) = ⟨⟨ox, oy⟩, ⟨ox + w, oy + h⟩⟩ :=
    intersect_of_inside _ _ (by simp [originBounds, Rectangle.Add])
      (by simp [originBounds, Rectangle.Add])
      (by simp [originBounds, Rectangle.Add]; omega)
      (by simp [originBounds, Rectangle.Add]; omega) (by simp; omega) (by simp; omega)
  simp only [e1, e2]
  simp

/-- C9 as stated fails at a 1 by 2 source: the canvas has side 2, the one spare
column is to the right of the source, so the leading padding is 0 and not
`⌈1/2⌉ = 1`. -/
theorem letterbox_remainder_leading_counterexample :
    ¬ ((letterbox (originBounds 1 2)).offsetX = ⌈(((max 1 2 - 1 : Int) : ℚ) / 2)⌉ ∧
       (letterbox (originBounds 1 2)).trailingX = ⌊(((max 1 2 - 1 : Int) : ℚ) / 2)⌋) := by
  intro hcon
  have hoff : (letterbox (originBounds 1 2)).offsetX = 0 := by decide
  have hceil : ⌈(((max 1 2 - 1 : Int) : ℚ) / 2)⌉ = 1 := by
    rw [Int.ceil_eq_iff]
    norm_num
  rw [hoff, hceil] at hcon
  exact absurd hcon.1 (by decide)

/-- C9 amended: a source of width `w` and height `h` whose bounds start at the
origin is placed on a square canvas of side `max w h`; on each axis leading
padding + extent + trailing padding is the side, the leading padding is `⌊d/2⌋`
and the trailing padding `⌈d/2⌉` for `d = max w h - extent`, so for odd `d` the
remainder pixel is on the trailing (right / bottom) edge; a non-empty source is
drawn whole into that rectangle, its pixel `(0, 0)` at the corner
`(offsetX, offsetY)`. -/
theorem letterbox_padding (w h : Int) (hw : 0 ≤ w) (hh : 0 ≤ h) :
    (letterbox (originBounds w h)).maxDim = max w h ∧
    (letterbox (originBounds w h)).offsetX + w + (letterbox (originBounds w h)).trailingX =
      (letterbox (originBounds w h)).maxDim ∧
    (letterbox (originBounds w h)).offsetY + h + (letterbox (originBounds w h)).trailingY =
      (letterbox (originBounds w h)).maxDim ∧
    (letterbox (originBounds w h)).offsetX = ⌊(((max w h - w : Int) : ℚ) / 2)⌋ ∧
    (letterbox (originBounds w h)).trailingX = ⌈(((max w h - w : Int) : ℚ) / 2)⌉ ∧
    (letterbox (originBounds w h)).offsetY = ⌊(((max w h - h : Int) : ℚ) / 2)⌋ ∧
    (letterbox (originBounds w h)).trailingY = ⌈(((max w h - h : Int) : ℚ) / 2)⌉ ∧
    ((max w h - w) % 2 = 1 →
      (letterbox (originBounds w h)).trailingX = (letterbox (originBounds w h)).offsetX + 1) ∧
    ((max w h - h) % 2 = 1 →
      (letterbox (originBounds w h)).trailingY = (letterbox (originBounds w h)).offsetY + 1) ∧
    0 ≤ (letterbox (originBounds w h)).offsetX ∧ 0 ≤ (letterbox (originBounds w h)).offsetY ∧
    (letterbox (originBounds w h)).rect =
      ⟨⟨(letterbox (originBounds w h)).offsetX, (letterbox (originBounds w h)).offsetY⟩,
       ⟨(letterbox (originBounds w h)).offsetX + w,
        (letterbox (originBounds w h)).offsetY + h⟩⟩ ∧
    (0 < w → 0 < h →
      (letterbox (originBounds w h)).drawn = (letterbox (originBounds w h)).rect ∧
      (letterbox (originBounds w h)).srcPoint = ⟨0, 0⟩) := by
  have hdx : 0 ≤ max w h - w := sub_nonneg.mpr (le_max_left w h)
  have hdy : 0 ≤ max w h - h := sub_nonneg.mpr (le_max_right w h)
  obtain ⟨fx, cx, ox, _⟩ := half_floor_ceil (max w h - w) hdx
  obtain ⟨fy, cy, oy, _⟩ := half_floor_ceil (max w h - h) hdy
  have hW : (originBounds w h).Dx = w := by simp [originBounds, Rectangle.Dx]
  have hH : (originBounds w h).Dy = h := by simp [originBounds, Rectangle.Dy]
  have ofx : (letterbox (originBounds w h)).offsetX = Int.tdiv (max w h - w) 2 := by
    simp only [letterbox, hW, hH]
  have ofy : (letterbox (originBounds w h)).offsetY = Int.tdiv (max w h - h) 2 := by
    simp only [letterbox, hW, hH]
  have hm : (letterbox (originBounds w h)).maxDim = max w h := by
    simp only [letterbox, hW, hH]
  have p0x : 0 ≤ Int.tdiv (max w h - w) 2 := by
    rw [Int.tdiv_eq_ediv hdx (by norm_num)]; omega
  have p0y : 0 ≤ Int.tdiv (max w h - h) 2 := by
    rw [Int.tdiv_eq_ediv hdy (by norm_num)]; omega
  have p1x : Int.tdiv (max w h - w) 2 + w ≤ max w h := by
    rw [Int.tdiv_eq_ediv hdx (by norm_num)]; omega
  have p1y : Int.tdiv (max w h - h) 2 + h ≤ max w h := by
    rw [Int.tdiv_eq_ediv hdy (by norm_num)]; omega
  have hrect : (letterbox (originBounds w h)).rect =
      ⟨⟨Int.tdiv (max w h - w) 2, Int.tdiv (max w h - h) 2⟩,
       ⟨Int.tdiv (max w h - w) 2 + w, Int.tdiv (max w h - h) 2 + h⟩⟩ := by
    simp only [letterbox, hW, hH]
    exact rect_ordered _ _ _ _ (by omega) (by omega)
  have tx : (letterbox (originBounds w h)).trailingX =
      (max w h - w) - Int.tdiv (max w h - w) 2 := by
    simp only [Letterbox.trailingX, hrect, hm]; ring
  have ty : (letterbox (originBounds w h)).trailingY =
      (max w h - h) - Int.tdiv (max w h - h) 2 := by
    simp only [Letterbox.trailingY, hrect, hm]; ring
  refine ⟨hm, ?_, ?_, ?_, ?_, ?_, ?_, ?_, ?_, ?_, ?_, ?_, ?_⟩
  · rw [tx, ofx, hm]; ring
  · rw [ty, ofy, hm]; ring
  · rw [ofx]; exact fx
  · rw [tx]; exact cx
  · rw [ofy]; exact fy
  · rw [ty]; exact cy
  · intro hodd; rw [tx, ofx]; exact ox hodd
  · intro hodd; rw [ty, ofy]; exact oy hodd
  · rw [ofx]; exact p0x
  · rw [ofy]; exact p0y
  · rw [hrect, ofx, ofy]
  · intro hwp hhp
    have hc := clip_inside (max w h) (Int.tdiv (max w h - w) 2) (Int.tdiv (max w h - h) 2)
      w h p0x p0y p1x p1y hwp hhp
    have hd : (letterbox (originBounds w h)).drawn =
        (clip (Rect 0 0 (max w h) (max w h))
          (Rect (Int.tdiv (max w h - w) 2) (Int.tdiv (max w h - h) 2)
            (Int.tdiv (max w h - w) 2 + w) (Int.tdiv (max w h - h) 2 + h))
          (originBounds w h) ⟨0, 0⟩).1 := by
      simp only [letterbox, hW, hH]
    have hs : (letterbox (originBounds w h)).srcPoint =
        (clip (Rect 0 0 (max w h) (max w h))
          (Rect (Int.tdiv (max w h - w) 2) (Int.tdiv (max w h - h) 2)
            (Int.tdiv (max w h - w) 2 + w) (Int.tdiv (max w h - h) 2 + h))
          (originBounds w h) ⟨0, 0⟩).2 := by
      simp only [letterbox, hW, hH]
    rw [hd, hs, hc, hrect]
    exact ⟨rfl, rfl⟩

/-- C9 amended at a 1 by 2 source at the origin: leading padding 0, trailing
padding 1 on the horizontal axis, and the source is drawn whole. -/
theorem letterbox_padding_witness :
    (0 : Int) ≤ 1 ∧ (0 : Int) ≤ 2 ∧ (letterbox (originBounds 1 2)).offsetX = 0 ∧
    (letterbox (originBounds 1 2)).trailingX = 1 ∧
    (letterbox (originBounds 1 2)).drawn = ⟨⟨0, 0⟩, ⟨1, 2⟩⟩ ∧
    (letterbox (originBounds 1 2)).offsetX + 1 + (letterbox (originBounds 1 2)).trailingX =
      (letterbox (originBounds 1 2)).maxDim ∧
    ((max (1 : Int) 2 - 1) % 2 = 1 →
      (letterbox (originBounds 1 2)).trailingX = (letterbox (originBounds 1 2)).offsetX + 1) ∧
    ((0 : Int) < 1 → (0 : Int) < 2 →
      (letterbox (originBounds 1 2)).drawn = (letterbox (originBounds 1 2)).rect ∧
      (letterbox (originBounds 1 2)).srcPoint = ⟨0, 0⟩) :=
  ⟨by decide, by decide, by decide, by decide, by decide,
    (letterbox_padding 1 2 (by decide) (by decide)).2.1,
    (letterbox_padding 1 2 (by decide) (by decide)).2.2.2.2.2.2.2.1,
    (letterbox_padding 1 2 (by decide) (by decide)).2.2.2.2.2.2.2.2.2.2.2.2⟩

/-- A source whose bounds do not start at the origin is not drawn into the
rectangle: with bounds `(3,4)-(4,6)` nothing is written. -/
theorem letterbox_offset_source_not_drawn :
    (letterbox ⟨⟨3, 4⟩, ⟨4, 6⟩⟩).rect = ⟨⟨0, 0⟩, ⟨1, 2⟩⟩ ∧
    (letterbox ⟨⟨3, 4⟩, ⟨4, 6⟩⟩).drawn = ⟨⟨0, 0⟩, ⟨0, 0⟩⟩ := by
  decide

/-! ## `preprocess`: the flat output -/

theorem flatValue_at (resized : Nat → Nat → RGBA16) (size x y : Nat) (hx : x < size) :
    flatValue resized size (3 * (y * size + x)) = (((resized x y).b / 257 : Nat) : ℚ) ∧
    flatValue resized size (3 * (y * size + x) + 1) = (((resized x y).g / 257 : Nat) : ℚ) ∧
    flatValue resized size (3 * (y * size + x) + 2) = (((resized x y).r / 257 : Nat) : ℚ) := by
  have hpos : 0 < size := by omega
  have hm : (y * size + x) % size = x := by
    rw [Nat.add_comm, Nat.add_mul_mod_self_right]
    exact Nat.mod_eq_of_lt hx
  have hd : (y * size + x) / size = y := by
    rw [Nat.add_comm, Nat.add_mul_div_right _ _ hpos, Nat.div_eq_of_lt hx, Nat.zero_add]
  have q0 : 3 * (y * size + x) / 3 = y * size + x := by omega
  have q1 : (3 * (y * size + x) + 1) / 3 = y * size + x := by omega
  have q2 : (3 * (y * size + x) + 2) / 3 = y * size + x := by omega
  have r0 : 3 * (y * size + x) % 3 = 0 := by omega
  have r1 : (3 * (y * size + x) + 1) % 3 = 1 := by omega
  have r2 : (3 * (y * size + x) + 2) % 3 = 2 := by omega
  refine ⟨?_, ?_, ?_⟩
  · simp only [flatValue, q0, r0, hm, hd, if_true]
  · simp only [flatValue, q1, r1, hm, hd]
    simp
  · simp only [flatValue, q2, r2, hm, hd]
    simp

theorem flattenRow_eq (resized : Nat → Nat → RGBA16) (size y : Nat) :
    ∀ (n x : Nat) (result : List ℚ), x + n ≤ size →
      result = (List.range (3 * (y * size + x))).map (flatValue resized size) →
      flattenRow resized y n x result =
        (List.range (3 * (y * size + x + n))).map (flatValue resized size) := by
  intro n
  induction n with
  | zero => intro x result _ hres; simpa [flattenRow] using hres
  | succ n ih =>
      intro x result hle hres
      unfold flattenRow
      simp only
      have hx : x < size := by omega
      obtain ⟨vb, vg, vr⟩ := flatValue_at resized size x y hx
      rw [ih (x + 1) _ (by omega) ?_]
      · congr 2
        omega
      · have e : 3 * (y * size + (x + 1)) = 3 * (y * size + x) + 1 + 1 + 1 := by ring
        rw [e, List.range_succ, List.range_succ, List.range_succ, hres]
        simp only [List.map_append, List.map_cons, List.map_nil]
        rw [vb, vg, vr]

theorem flattenRows_eq (resized : Nat → Nat → RGBA16) (size : Nat) :
    ∀ (n y : Nat) (result : List ℚ),
      result = (List.range (3 * (y * size))).map (flatValue resized size) →
      flattenRows resized size n y result =
        (List.range (3 * ((y + n) * size))).map (flatValue resized size) := by
  intro n
  induction n with
  | zero => intro y result hres; simpa [flattenRows] using hres
  | succ n ih =>
      intro y result hres
      unfold flattenRows
      rw [ih (y + 1) _ ?_]
      · congr 4
        omega
      · rw [flattenRow_eq resized size y size 0 result (by omega) (by simpa using hres)]
        congr 3
        ring

theorem flatten_eq (resized : Nat → Nat → RGBA16) (size : Nat) :
    flatten resized size = (List.range (3 * (size * size))).map (flatValue resized size) := by
  unfold flatten
  rw [flattenRows_eq resized size size 0 [] (by simp)]
  simp

/-- C10: the flat output has `size * size * 3` values; for every pixel `(x, y)`
of the canvas the values at positions `3 * (y * size + x)`, `+1`, `+2` are the
blue, green and red channel of that pixel divided by 257 (integer division), and
with channel values up to 65535 every value of the output is a whole number
between 0 and 255. -/
theorem flatten_layout (resized : Nat → Nat → RGBA16) (size : Nat)
    (hch : ∀ x y, x < size → y < size →
      (resized x y).r ≤ 65535 ∧ (resized x y).g ≤ 65535 ∧ (resized x y).b ≤ 65535) :
    (flatten resized size).length = size * size * 3 ∧
    (∀ x y, x < size → y < size →
      (flatten resized size)[3 * (y * size + x)]? = some (((resized x y).b / 257 : Nat) : ℚ) ∧
      (flatten resized size)[3 * (y * size + x) + 1]? =
        some (((resized x y).g / 257 : Nat) : ℚ) ∧
      (flatten resized size)[3 * (y * size + x) + 2]? =
        some (((resized x y).r / 257 : Nat) : ℚ) ∧
      (resized x y).b / 257 ≤ 255 ∧ (resized x y).g / 257 ≤ 255 ∧
      (resized x y).r / 257 ≤ 255) ∧
    ∀ v ∈ flatten resized size, ∃ n : Nat, v = (n : ℚ) ∧ n ≤ 255 := by
  rw [flatten_eq]
  refine ⟨by simp; ring, ?_, ?_⟩
  · intro x y hx hy
    obtain ⟨vb, vg, vr⟩ := flatValue_at resized size x y hx
    obtain ⟨cr, cg, cb⟩ := hch x y hx hy
    have hp : y * size + x < size * size := by
      calc y * size + x < y * size + size := by omega
        _ = (y + 1) * size := by ring
        _ ≤ size * size := Nat.mul_le_mul_right size hy
    have k0 : 3 * (y * size + x) < 3 * (size * size) := by omega
    have k1 : 3 * (y * size + x) + 1 < 3 * (size * size) := by omega
    have k2 : 3 * (y * size + x) + 2 < 3 * (size * size) := by omega
    refine ⟨?_, ?_, ?_, by omega, by omega, by omega⟩
    · rw [List.getElem?_map, List.getElem?_range k0, Option.map_some', vb]
    · rw [List.getElem?_map, List.getElem?_range k1, Option.map_some', vg]
    · rw [List.getElem?_map, List.getElem?_range k2, Option.map_some', vr]
  · intro v hv
    obtain ⟨k, hk, rfl⟩ := List.mem_map.mp hv
    have hk3 : k < 3 * (size * size) := List.mem_range.mp hk
    have hq : k / 3 < size * size := by omega
    have hpos : 0 < size := by
      rcases Nat.eq_zero_or_pos size with h0 | h0
      · subst h0; simp at hq
      · exact h0
    have hx : (k / 3) % size < size := Nat.mod_lt _ hpos
    have hy : (k / 3) / size < size := Nat.div_lt_of_lt_mul hq
    obtain ⟨cr, cg, cb⟩ := hch _ _ hx hy
    unfold flatValue
    simp only
    split_ifs
    · exact ⟨_, rfl, by omega⟩
    · exact ⟨_, rfl, by omega⟩
    · exact ⟨_, rfl, by omega⟩

/-- C10 on a 2 by 2 canvas whose pixel `(x, y)` reports red `257 * x`, green
`257 * y` and blue 65535. -/
theorem flatten_layout_witness :
    flatten (fun x y => ⟨257 * x, 257 * y, 65535⟩) 2 =
      [255, 0, 0, 255, 0, 1, 255, 1, 0, 255, 1, 1] ∧
    (flatten (fun x y => ⟨257 * x, 257 * y, 65535⟩) 2).length = 2 * 2 * 3 ∧
    ∀ v ∈ flatten (fun x y => ⟨257 * x, 257 * y, 65535⟩) 2, ∃ n : Nat, v = (n : ℚ) ∧ n ≤ 255 :=
  ⟨by decide!,
    (flatten_layout (fun x y => ⟨257 * x, 257 * y, 65535⟩) 2
      (by intro x y hx hy; simp only; omega)).1,
    (flatten_layout (fun x y => ⟨257 * x, 257 * y, 65535⟩) 2
      (by intro x y hx hy; simp only; omega)).2.2⟩

end WdTagger
